import Mathlib

/-!
Verification of the mogp-emulator Gaussian-process fitting and prediction
engine against its specification.

The repository ships the test suite for the `GaussianProcess` core
(`tests/test_GaussianProcess.py`, `tests/test_MultiOutputGP.py`) together
with the FPGA front end (`GaussianProcessFPGA.py`); the core engine module
itself is not among the provided sources.  The engine is therefore modelled
from the specification (and the concrete values pinned down by the tests),
over exact real arithmetic: real matrices `Matrix (Fin n) (Fin n) ℝ`
replace numpy arrays, the Cholesky factorisation is obtained from the
LDL decomposition of a positive definite matrix, and fallible operations
return `Except`/`Option`.
-/

open Matrix

instance (n : ℕ) : WellFoundedLT (Fin n) := Finite.to_wellFoundedLT

noncomputable section

/-! ### Kernel

Modelled from the spec: squared-exponential kernel (spec 4.1).  Parameters
are `D` raw correlation values plus one raw covariance-scale value, all on a
log scale; the per-dimension length scale is `exp (-0.5 * raw)` (the
natural-space transform asserted by `test_GaussianProcess_priors`), so raw
correlation `c d` multiplies the squared coordinate difference by
`exp (c d)`. -/

/-- Modelled from the spec: the squared-exponential covariance between two
points, with raw correlation parameters `c` and raw covariance scale `s`
(spec 4.1, "Kernel"). -/
def sqExpCov {D : ℕ} (c : Fin D → ℝ) (s : ℝ) (x1 x2 : Fin D → ℝ) : ℝ :=
  Real.exp s * Real.exp (-(∑ d, Real.exp (c d) * (x1 d - x2 d) ^ 2) / 2)

/-- Modelled from the spec: `kernel_f`, the covariance matrix between two
sets of points (spec 4.1). -/
def kernel_f {n1 n2 D : ℕ} (X1 : Matrix (Fin n1) (Fin D) ℝ)
    (X2 : Matrix (Fin n2) (Fin D) ℝ) (c : Fin D → ℝ) (s : ℝ) :
    Matrix (Fin n1) (Fin n2) ℝ :=
  Matrix.of fun i j => sqExpCov c s (X1 i) (X2 j)

/-! ### Nugget modes and parameters -/

/-- Modelled from the spec: the nugget mode, one of fixed / adaptive / fit /
pivot (spec 3, "Nugget mode"). -/
inductive NuggetMode where
  | fixedN (v : ℝ)
  | adaptive
  | fitN
  | pivot

/-- Whether the nugget is itself a fitted parameter. -/
def NuggetMode.isFit : NuggetMode → Bool
  | .fitN => true
  | _ => false

/-- Whether the mode uses pivoted factorisation. -/
def NuggetMode.isPivot : NuggetMode → Bool
  | .pivot => true
  | _ => false

open scoped Classical in
/-- Modelled from the spec: the realized nugget value for a kernel matrix
`K` (spec 3 and 4.5): a fixed value in fixed mode, the minimal diagonal
jitter needed for positive definiteness in adaptive mode, `exp` of the raw
nugget parameter in fit mode, and zero (no additive jitter) in pivot
mode. -/
def realizedNugget {n : ℕ} (mode : NuggetMode) (K : Matrix (Fin n) (Fin n) ℝ)
    (rawNug : ℝ) : ℝ :=
  match mode with
  | .fixedN v => v
  | .adaptive => sInf {c : ℝ | 0 ≤ c ∧ (K + c • (1 : Matrix (Fin n) (Fin n) ℝ)).PosDef}
  | .fitN => Real.exp rawNug
  | .pivot => 0

/-- Modelled from the spec: the structured view of the parameter vector
theta, partitioned into mean, correlation (per input dimension),
covariance-scale and nugget segments (spec 3 and 4.4, `GPParams`).  All
values are stored in raw (log-scale) space. -/
structure Theta (D k : ℕ) where
  mean : Fin k → ℝ
  corr : Fin D → ℝ
  cov : ℝ
  nug : ℝ

/-- Modelled from the spec: a Gaussian process training set with its mean
function: inputs `X` (n × D), targets `y` (length n), and the mean basis
map producing `k` features per point (spec 3, 4.2). -/
structure GP (n D k : ℕ) where
  X : Matrix (Fin n) (Fin D) ℝ
  y : Fin n → ℝ
  meanBasis : (Fin D → ℝ) → (Fin k → ℝ)

/-- The cached design matrix of the training inputs (spec 4.2). -/
def GP.dm {n D k : ℕ} (gp : GP n D k) : Matrix (Fin n) (Fin k) ℝ :=
  Matrix.of fun i => gp.meanBasis (gp.X i)

/-- The kernel matrix of the training inputs at theta. -/
def GP.Kmat {n D k : ℕ} (gp : GP n D k) (θ : Theta D k) :
    Matrix (Fin n) (Fin n) ℝ :=
  kernel_f gp.X gp.X θ.corr θ.cov

/-- Modelled from the spec: the covariance matrix `Q`, the kernel matrix at
theta plus the realized nugget diagonal (spec 4.5). -/
def GP.Qmat {n D k : ℕ} (gp : GP n D k) (mode : NuggetMode) (θ : Theta D k) :
    Matrix (Fin n) (Fin n) ℝ :=
  gp.Kmat θ + realizedNugget mode (gp.Kmat θ) θ.nug • (1 : Matrix (Fin n) (Fin n) ℝ)

/-- The fitted mean values at the training inputs: design matrix times the
mean-parameter segment of theta (spec 4.5). -/
def GP.meanVec {n D k : ℕ} (gp : GP n D k) (θ : Theta D k) : Fin n → ℝ :=
  gp.dm *ᵥ θ.mean

/-- The residual `y - m` of the targets against the fitted mean. -/
def GP.resid {n D k : ℕ} (gp : GP n D k) (θ : Theta D k) : Fin n → ℝ :=
  gp.y - gp.meanVec θ

/-! ### Priors

Modelled from the spec: each prior contributes its log density, evaluated
at the natural-space value of the parameter (spec 4.3 and the transforms of
spec 4.4 as pinned down by `test_GaussianProcess_priors`: correlation
`exp (-0.5 * raw)`, covariance `exp raw`, nugget `exp raw`). -/

/-- Modelled from the spec: the log-density functions of the priors held by
a GP: one per correlation dimension, one for the covariance scale, and one
for the nugget (spec 3, "Priors"). -/
structure GPPriors (D : ℕ) where
  corr : Fin D → (ℝ → ℝ)
  cov : ℝ → ℝ
  nugget : ℝ → ℝ

/-- The weak (no-op) prior: zero log density everywhere (spec 4.3). -/
def weakLogp : ℝ → ℝ := fun _ => 0

/-- Modelled from the spec: the total prior log-density contribution to the
log-posterior, at the natural-space parameter values.  The nugget prior
contributes only in "fit" mode (it is the weak prior otherwise, see
`test_GaussianProcess_priors`). -/
def priorLogp {D k : ℕ} (pr : GPPriors D) (mode : NuggetMode) (θ : Theta D k) : ℝ :=
  (∑ d, pr.corr d (Real.exp (-0.5 * θ.corr d))) + pr.cov (Real.exp θ.cov) +
    (if mode.isFit then pr.nugget (Real.exp θ.nug) else 0)

/-! ### Cholesky factorisation

The engine factorises `Q` by (optionally pivoted) Cholesky decomposition
and reuses the cached factor for the log-posterior and predictions
(spec 2, 4.5).  The factor is obtained from Mathlib's LDL decomposition:
the lower factor is the inverse of `LDL.lowerInv` scaled by the square
roots of the diagonal entries. -/

/-- The Cholesky factor of a positive definite real matrix. -/
def choleskyFactor {n : ℕ} {S : Matrix (Fin n) (Fin n) ℝ} (hS : S.PosDef) :
    Matrix (Fin n) (Fin n) ℝ :=
  (LDL.lowerInv hS)⁻¹ * Matrix.diagonal fun i => Real.sqrt (LDL.diagEntries hS i)

end

section CholeskyLemmas

variable {n : ℕ} {S : Matrix (Fin n) (Fin n) ℝ} (hS : S.PosDef)

/-- A vector in the span of the first standard basis vectors has vanishing
later coordinates. -/
theorem coord_eq_zero_of_mem_span_basisFun {j m : Fin n} (hm : j < m)
    {v : Fin n → ℝ}
    (hv : v ∈ Submodule.span ℝ ((Pi.basisFun ℝ (Fin n)) '' Set.Iic j)) :
    v m = 0 := by
  induction hv using Submodule.span_induction with
  | mem u hu =>
    obtain ⟨l, hl, rfl⟩ := hu
    have hlm : l ≠ m := by
      intro h
      exact absurd hm (not_lt.mpr (h ▸ Set.mem_Iic.mp hl))
    simp [Pi.basisFun_apply, Pi.single_eq_of_ne (Ne.symm hlm)]
  | zero => rfl
  | add u w _ _ hu hw => simp [hu, hw]
  | smul c u _ hu => simp [hu]

theorem lowerInv_diag_one (i : Fin n) : LDL.lowerInv hS i i = 1 := by
  letI := NormedAddCommGroup.ofMatrix hS.transpose
  letI := InnerProductSpace.ofMatrix hS.transpose
  set f : Fin n → (Fin n → ℝ) := ⇑(Pi.basisFun ℝ (Fin n)) with hf
  have hcoord : ∀ j : Fin n, j < i → gramSchmidt ℝ f j i = 0 := fun j hj =>
    coord_eq_zero_of_mem_span_basisFun hj (gramSchmidt_mem_span ℝ _ (le_refl j))
  have happ := congrFun (gramSchmidt_def'' ℝ f i) i
  rw [Pi.add_apply, Finset.sum_apply] at happ
  have hbase : f i i = 1 := by simp [hf, Pi.basisFun_apply]
  rw [hbase] at happ
  rw [Finset.sum_eq_zero ?hz, add_zero] at happ
  case hz =>
    intro j hj
    have h0 := hcoord j (Finset.mem_Iio.mp hj)
    simp [h0]
  exact happ.symm

theorem lowerInv_row_ne_zero (i : Fin n) : LDL.lowerInv hS i ≠ 0 := fun h => by
  have h1 := lowerInv_diag_one hS i
  rw [h, Pi.zero_apply] at h1
  exact zero_ne_one h1

/-- Over the reals the LDL diagonal entry is the quadratic form of `S` at
the corresponding row of `lowerInv`. -/
theorem diagEntries_eq_dotProduct (i : Fin n) :
    LDL.diagEntries hS i = LDL.lowerInv hS i ⬝ᵥ (S *ᵥ LDL.lowerInv hS i) := by
  simp [LDL.diagEntries, EuclideanSpace.inner_piLp_equiv_symm, star_trivial,
    Matrix.dotProduct]

theorem diagEntries_pos (i : Fin n) : 0 < LDL.diagEntries hS i := by
  rw [diagEntries_eq_dotProduct]
  simpa [star_trivial] using hS.2 _ (lowerInv_row_ne_zero hS i)

theorem lowerInv_blockTriangular :
    (LDL.lowerInv hS).BlockTriangular OrderDual.toDual := by
  intro i j hij
  exact LDL.lowerInv_triangular hS hij

theorem lowerInv_det_one : (LDL.lowerInv hS).det = 1 := by
  rw [Matrix.det_of_lowerTriangular _ (lowerInv_blockTriangular hS)]
  exact Finset.prod_eq_one fun i _ => lowerInv_diag_one hS i

theorem lowerInv_isUnit_det : IsUnit (LDL.lowerInv hS).det := by
  rw [lowerInv_det_one hS]
  exact isUnit_one

theorem myLower_blockTriangular :
    ((LDL.lowerInv hS)⁻¹).BlockTriangular OrderDual.toDual := by
  haveI := (LDL.lowerInv hS).invertibleOfIsUnitDet (lowerInv_isUnit_det hS)
  exact Matrix.blockTriangular_inv_of_blockTriangular (lowerInv_blockTriangular hS)

/-- The diagonal of the inverse of a lower-triangular matrix inverts the
diagonal entries. -/
theorem inv_triangular_diag {M : Matrix (Fin n) (Fin n) ℝ} [Invertible M]
    (hM : M.BlockTriangular OrderDual.toDual) (i : Fin n) :
    M⁻¹ i i = (M i i)⁻¹ := by
  have hinv := Matrix.blockTriangular_inv_of_blockTriangular hM
  have hMM : (M * M⁻¹) i i = 1 := by
    rw [Matrix.mul_inv_of_invertible]
    exact Matrix.one_apply_eq i
  rw [Matrix.mul_apply] at hMM
  have hsingle : ∀ k ∈ Finset.univ, k ≠ i → M i k * M⁻¹ k i = 0 := by
    intro k _ hk
    rcases lt_or_gt_of_ne hk with hlt | hgt
    · rw [hinv (by simpa using hlt), mul_zero]
    · rw [hM (by simpa using hgt), zero_mul]
  rw [Finset.sum_eq_single i hsingle (fun h => absurd (Finset.mem_univ i) h)] at hMM
  exact (inv_eq_of_mul_eq_one_right hMM).symm

theorem myLower_diag_one (i : Fin n) : (LDL.lowerInv hS)⁻¹ i i = 1 := by
  haveI := (LDL.lowerInv hS).invertibleOfIsUnitDet (lowerInv_isUnit_det hS)
  rw [inv_triangular_diag (lowerInv_blockTriangular hS), lowerInv_diag_one hS i,
    inv_one]

/-- The conjugation identity `lowerInv * S * lowerInvᴴ = diagonal
(diagEntries)`, transported from the LDL decomposition. -/
theorem lowerInv_conj_eq_diagonal :
    LDL.lowerInv hS * S * (LDL.lowerInv hS)ᴴ =
      Matrix.diagonal (LDL.diagEntries hS) := by
  rw [← LDL.diag_eq_lowerInv_conj hS]
  unfold LDL.diag Matrix.diagonal
  ext i j
  by_cases h : i = j <;> simp [h]

/-- The matrix decomposition `S = L D Lᴴ` with `L` the inverse of
`lowerInv` and `D` the diagonal of `diagEntries`. -/
theorem my_conj_diag :
    (LDL.lowerInv hS)⁻¹ * Matrix.diagonal (LDL.diagEntries hS) *
      ((LDL.lowerInv hS)⁻¹)ᴴ = S := by
  have hdet : IsUnit (LDL.lowerInv hS).det := lowerInv_isUnit_det hS
  have hdetH : IsUnit ((LDL.lowerInv hS)ᴴ).det := by
    rw [Matrix.det_conjTranspose]
    exact hdet.star
  rw [← lowerInv_conj_eq_diagonal hS, Matrix.conjTranspose_nonsing_inv]
  calc (LDL.lowerInv hS)⁻¹ * (LDL.lowerInv hS * S * (LDL.lowerInv hS)ᴴ) *
        ((LDL.lowerInv hS)ᴴ)⁻¹
      = ((LDL.lowerInv hS)⁻¹ * LDL.lowerInv hS) * S *
        ((LDL.lowerInv hS)ᴴ * ((LDL.lowerInv hS)ᴴ)⁻¹) := by
        simp only [Matrix.mul_assoc]
    _ = S := by
        rw [Matrix.nonsing_inv_mul _ hdet, Matrix.mul_nonsing_inv _ hdetH,
          Matrix.one_mul, Matrix.mul_one]

theorem choleskyFactor_blockTriangular :
    (choleskyFactor hS).BlockTriangular OrderDual.toDual :=
  (myLower_blockTriangular hS).mul (Matrix.blockTriangular_diagonal _)

theorem choleskyFactor_diag (i : Fin n) :
    choleskyFactor hS i i = Real.sqrt (LDL.diagEntries hS i) := by
  rw [choleskyFactor, Matrix.mul_diagonal, myLower_diag_one hS i, one_mul]

theorem choleskyFactor_diag_pos (i : Fin n) : 0 < choleskyFactor hS i i := by
  rw [choleskyFactor_diag]
  exact Real.sqrt_pos.mpr (diagEntries_pos hS i)

/-- The defining property of the Cholesky factor: `L * Lᵀ = S`. -/
theorem choleskyFactor_mul_transpose :
    choleskyFactor hS * (choleskyFactor hS)ᵀ = S := by
  have hD : ∀ i, 0 ≤ LDL.diagEntries hS i := fun i => (diagEntries_pos hS i).le
  have hsq : (Matrix.diagonal fun i => Real.sqrt (LDL.diagEntries hS i)) *
      (Matrix.diagonal fun i => Real.sqrt (LDL.diagEntries hS i)) =
      Matrix.diagonal (LDL.diagEntries hS) := by
    rw [Matrix.diagonal_mul_diagonal]
    exact congrArg Matrix.diagonal (funext fun i => Real.mul_self_sqrt (hD i))
  rw [choleskyFactor, Matrix.transpose_mul, Matrix.diagonal_transpose]
  calc (LDL.lowerInv hS)⁻¹ * Matrix.diagonal (fun i => Real.sqrt (LDL.diagEntries hS i)) *
        ((Matrix.diagonal fun i => Real.sqrt (LDL.diagEntries hS i)) * ((LDL.lowerInv hS)⁻¹)ᵀ)
      = (LDL.lowerInv hS)⁻¹ * ((Matrix.diagonal fun i => Real.sqrt (LDL.diagEntries hS i)) *
        (Matrix.diagonal fun i => Real.sqrt (LDL.diagEntries hS i))) * ((LDL.lowerInv hS)⁻¹)ᵀ := by
        simp only [Matrix.mul_assoc]
    _ = S := by
        rw [hsq, ← ((LDL.lowerInv hS)⁻¹).conjTranspose_eq_transpose_of_trivial]
        exact my_conj_diag hS

theorem choleskyFactor_det :
    (choleskyFactor hS).det = ∏ i, choleskyFactor hS i i :=
  Matrix.det_of_lowerTriangular _ (choleskyFactor_blockTriangular hS)

theorem det_eq_sq_prod_choleskyDiag :
    S.det = (∏ i, choleskyFactor hS i i) ^ 2 := by
  have h := congrArg Matrix.det (choleskyFactor_mul_transpose hS)
  rw [Matrix.det_mul, Matrix.det_transpose, choleskyFactor_det hS] at h
  rw [← h, sq]

/-- The engine computes the log determinant of `Q` as twice the sum of the
logs of the Cholesky diagonal; this equals `log det Q`. -/
theorem log_det_eq_sum_log_choleskyDiag :
    Real.log S.det = 2 * ∑ i, Real.log (choleskyFactor hS i i) := by
  rw [det_eq_sq_prod_choleskyDiag hS, Real.log_pow, Real.log_prod _ _
    fun i _ => (choleskyFactor_diag_pos hS i).ne']
  push_cast
  ring

theorem choleskyFactor_det_ne_zero : (choleskyFactor hS).det ≠ 0 := by
  rw [choleskyFactor_det hS]
  exact Finset.prod_ne_zero_iff.mpr fun i _ => (choleskyFactor_diag_pos hS i).ne'

/-- The quadratic form of `S⁻¹` computed through the Cholesky factor, as
the engine evaluates it from its cache: a sum of squares of the
forward-solve result. -/
theorem inv_quadform_eq_sum_sq (v : Fin n → ℝ) :
    v ⬝ᵥ (S⁻¹ *ᵥ v) = ∑ i, ((choleskyFactor hS)⁻¹ *ᵥ v) i ^ 2 := by
  set L := choleskyFactor hS with hL
  have hSLL : S = L * Lᵀ := (choleskyFactor_mul_transpose hS).symm
  have hinv : S⁻¹ = Lᵀ⁻¹ * L⁻¹ := by rw [hSLL, Matrix.mul_inv_rev]
  rw [hinv, ← Matrix.mulVec_mulVec, ← Matrix.transpose_nonsing_inv,
    Matrix.dotProduct_mulVec, Matrix.vecMul_transpose]
  simp [Matrix.dotProduct, sq]

end CholeskyLemmas

/-! ### Pivoted factorisation

Modelled from the spec: in pivot mode the engine factorises with column
pivoting, reordering rows by numerical significance (spec 4.5 and the
glossary): at each step the pivot is the remaining index whose Schur
complement diagonal entry (the residual diagonal) is largest, ties broken
towards the smallest index. -/

noncomputable section PivotDefs

/-- The indices not yet chosen as pivots. -/
def notChosen {n : ℕ} (l : List (Fin n)) : Finset (Fin n) :=
  Finset.univ.filter (· ∉ l)

/-- The residual (Schur-complement) diagonal entry of index `i` after the
indices in `l` have been eliminated. -/
def schurResid {n : ℕ} (K : Matrix (Fin n) (Fin n) ℝ) (l : List (Fin n))
    (i : Fin n) : ℝ :=
  K i i - (fun a : Fin l.length => K (l.get a) i) ⬝ᵥ
    ((Matrix.of fun a b : Fin l.length => K (l.get a) (l.get b))⁻¹ *ᵥ
      fun a : Fin l.length => K (l.get a) i)

open scoped Classical in
/-- The next pivot: the unchosen index with the largest residual diagonal,
smallest index on ties; `none` when every index has been chosen. -/
def pickPivot {n : ℕ} (K : Matrix (Fin n) (Fin n) ℝ) (l : List (Fin n)) :
    Option (Fin n) :=
  if h : (notChosen l).Nonempty then
    some (((notChosen l).filter fun i =>
        schurResid K l i = (notChosen l).sup' h (schurResid K l)).min'
      (by
        obtain ⟨b, hb, he⟩ := Finset.exists_mem_eq_sup' h (schurResid K l)
        exact ⟨b, Finset.mem_filter.mpr ⟨hb, he.symm⟩⟩))
  else none

/-- The pivot order after `s` steps of greedy selection. -/
def pivotSeq {n : ℕ} (K : Matrix (Fin n) (Fin n) ℝ) : ℕ → List (Fin n)
  | 0 => []
  | s + 1 =>
    match pickPivot K (pivotSeq K s) with
    | some i => pivotSeq K s ++ [i]
    | none => pivotSeq K s

/-- The pivot order as a function on indices. -/
def pivotFun {n : ℕ} (K : Matrix (Fin n) (Fin n) ℝ) : Fin n → Fin n :=
  fun i => (pivotSeq K n).getD i.val i

open scoped Classical in
/-- The pivot permutation of the pivoted Cholesky factorisation. -/
def pivotPerm {n : ℕ} (K : Matrix (Fin n) (Fin n) ℝ) : Equiv.Perm (Fin n) :=
  if h : Function.Bijective (pivotFun K) then Equiv.ofBijective _ h
  else Equiv.refl _

end PivotDefs

/-! ### The fitting and prediction engine -/

noncomputable section EngineDefs

/-- Modelled from the spec: the cache produced by a fit: factor `L`, pivot
permutation `P`, the solved vector `invQt` and the current log-posterior
(spec 3, "Fit result"). -/
structure FitCache (n : ℕ) where
  L : Matrix (Fin n) (Fin n) ℝ
  P : Equiv.Perm (Fin n)
  invQt : Fin n → ℝ
  current_logpost : ℝ

variable {n D k m : ℕ}

/-- The permutation the engine factorises with: the pivot permutation in
pivot mode and the identity otherwise. -/
def GP.fitPerm (gp : GP n D k) (mode : NuggetMode) (θ : Theta D k) :
    Equiv.Perm (Fin n) :=
  if mode.isPivot then pivotPerm (gp.Qmat mode θ) else Equiv.refl _

open scoped Classical in
/-- Modelled from the spec: `fit` builds the design matrix and kernel
matrix, adds the nugget per mode, factorises (a pivoted Cholesky yields an
accompanying permutation), solves for `invQt = Q⁻¹ (y - m)` and computes
the log-posterior from the cached factor (spec 4.5). -/
def GP.fit (gp : GP n D k) (pr : GPPriors D) (mode : NuggetMode)
    (θ : Theta D k) : FitCache n :=
  let Q := gp.Qmat mode θ
  let P := gp.fitPerm mode θ
  let L : Matrix (Fin n) (Fin n) ℝ :=
    if h : (Q.submatrix P P).PosDef then choleskyFactor h else 0
  let invQt := Q⁻¹ *ᵥ gp.resid θ
  { L := L
    P := P
    invQt := invQt
    current_logpost :=
      0.5 * (2 * ∑ i, Real.log (L i i) + gp.resid θ ⬝ᵥ invQt +
        n * Real.log (2 * Real.pi)) - priorLogp pr mode θ }

/-- Modelled from the spec: `logposterior` fits at the requested parameters
and reports the cached value (spec 4.5). -/
def GP.logposterior (gp : GP n D k) (pr : GPPriors D) (mode : NuggetMode)
    (θ : Theta D k) : ℝ :=
  (gp.fit pr mode θ).current_logpost

/-- The cross-covariance matrix between test points and training points. -/
def GP.Ktest (gp : GP n D k) (θ : Theta D k)
    (Xt : Matrix (Fin m) (Fin D) ℝ) : Matrix (Fin m) (Fin n) ℝ :=
  kernel_f Xt gp.X θ.corr θ.cov

/-- Modelled from the spec: the predictive mean, mean function at the test
points plus the kernel cross-term against the cached `invQt` (spec 4.5). -/
def GP.predMean (gp : GP n D k) (pr : GPPriors D) (mode : NuggetMode)
    (θ : Theta D k) (Xt : Matrix (Fin m) (Fin D) ℝ) : Fin m → ℝ :=
  (Matrix.of fun j => gp.meanBasis (Xt j)) *ᵥ θ.mean +
    gp.Ktest θ Xt *ᵥ (gp.fit pr mode θ).invQt

/-- Modelled from the spec: the predictive variance computed from the
cached factorisation: prior variance `exp (cov)`, plus the realized nugget
when requested, minus the squared norm of the forward-solve of the
(permuted) cross-covariance through the cached factor (spec 4.5). -/
def GP.predUnc (gp : GP n D k) (pr : GPPriors D) (mode : NuggetMode)
    (θ : Theta D k) (Xt : Matrix (Fin m) (Fin D) ℝ) (includeNugget : Bool) :
    Fin m → ℝ :=
  let cache := gp.fit pr mode θ
  fun j => Real.exp θ.cov +
    (if includeNugget then realizedNugget mode (gp.Kmat θ) θ.nug else 0) -
    ∑ i, (cache.L⁻¹ *ᵥ fun a => gp.Ktest θ Xt j (cache.P a)) i ^ 2

/-- Modelled from the spec: a prediction result: mean vector, optional
variance vector, optional derivative matrix (spec 3, "Prediction
result"). -/
structure PredictResult (m D : ℕ) where
  mean : Fin m → ℝ
  unc : Option (Fin m → ℝ)
  deriv : Option (Matrix (Fin m) (Fin D) ℝ)

/-- Modelled from the spec and `test_GaussianProcess_predict`: `predict` on
a single fitted GaussianProcess returns the mean, the variance when `unc`
is requested, and a `deriv` slot that is empty (the test asserts
`pr.deriv is None` even at the default `deriv=True`). -/
def GP.predict (gp : GP n D k) (pr : GPPriors D) (mode : NuggetMode)
    (θ : Theta D k) (Xt : Matrix (Fin m) (Fin D) ℝ)
    (uncFlag : Bool) (includeNugget : Bool) : PredictResult m D :=
  { mean := gp.predMean pr mode θ Xt
    unc := if uncFlag then some (gp.predUnc pr mode θ Xt includeNugget) else none
    deriv := none }

end EngineDefs

/-! ### Permutation and positive-definiteness helper lemmas -/

section PermLemmas

variable {n : ℕ}

theorem dotProduct_comp_equiv (e : Equiv.Perm (Fin n)) (x w : Fin n → ℝ) :
    (x ∘ e) ⬝ᵥ (w ∘ e) = x ⬝ᵥ w := by
  simpa [Matrix.dotProduct, Function.comp] using
    Equiv.sum_comp e fun j => x j * w j

theorem posDef_submatrix_equiv {A : Matrix (Fin n) (Fin n) ℝ}
    (hA : A.PosDef) (e : Equiv.Perm (Fin n)) : (A.submatrix e e).PosDef := by
  constructor
  · show (A.submatrix e e)ᴴ = A.submatrix e e
    rw [Matrix.conjTranspose_submatrix, hA.1]
  · intro x hx
    have hx' : x ∘ e.symm ≠ 0 := by
      intro h0
      apply hx
      funext i
      have := congrFun h0 (e i)
      simpa using this
    have hmv : (A.submatrix e e) *ᵥ x = (A *ᵥ (x ∘ e.symm)) ∘ e :=
      Matrix.submatrix_mulVec_equiv A x e e
    have hsum : star x ⬝ᵥ ((A *ᵥ (x ∘ e.symm)) ∘ e) =
        star (x ∘ e.symm) ⬝ᵥ (A *ᵥ (x ∘ e.symm)) := by
      have : star x ∘ e = star (x ∘ e.symm) ∘ e ∘ e := by
        funext i
        simp [Function.comp, star_trivial]
      calc star x ⬝ᵥ ((A *ᵥ (x ∘ e.symm)) ∘ e)
          = (star x ∘ e) ⬝ᵥ ((A *ᵥ (x ∘ e.symm)) ∘ e ∘ e) := by
            rw [← dotProduct_comp_equiv e (star x)]
            rfl
        _ = star (x ∘ e.symm) ⬝ᵥ (A *ᵥ (x ∘ e.symm)) := by
            rw [this]
            have := dotProduct_comp_equiv (e.trans e) (star (x ∘ e.symm))
              (A *ᵥ (x ∘ e.symm))
            simpa [Function.comp] using this
    rw [hmv, hsum]
    exact hA.2 _ hx'

theorem inv_submatrix_equiv {A : Matrix (Fin n) (Fin n) ℝ}
    (hA : IsUnit A.det) (e : Equiv.Perm (Fin n)) :
    (A.submatrix e e)⁻¹ = A⁻¹.submatrix e e := by
  apply Matrix.inv_eq_right_inv
  rw [Matrix.submatrix_mul_equiv, Matrix.mul_nonsing_inv _ hA,
    Matrix.submatrix_one_equiv]

theorem submatrix_mulVec_comp_equiv {A : Matrix (Fin n) (Fin n) ℝ}
    (e : Equiv.Perm (Fin n)) (v : Fin n → ℝ) :
    (A.submatrix e e) *ᵥ (v ∘ e) = (A *ᵥ v) ∘ e := by
  rw [Matrix.submatrix_mulVec_equiv]
  have : (v ∘ e) ∘ e.symm = v := by
    funext j
    simp [Function.comp]
  rw [this]

/-- In adaptive mode, a kernel matrix that is already positive definite
realizes a zero nugget (the minimal jitter is zero). -/
theorem realizedNugget_adaptive_of_posDef {K : Matrix (Fin n) (Fin n) ℝ}
    (hK : K.PosDef) (t : ℝ) : realizedNugget .adaptive K t = 0 := by
  unfold realizedNugget
  have hmem : (0 : ℝ) ∈ {c : ℝ | 0 ≤ c ∧
      (K + c • (1 : Matrix (Fin n) (Fin n) ℝ)).PosDef} := by
    refine ⟨le_refl 0, ?_⟩
    simpa using hK
  apply le_antisymm
  · exact csInf_le ⟨0, fun c hc => hc.1⟩ hmem
  · exact le_csInf ⟨0, hmem⟩ fun c hc => hc.1

end PermLemmas


/-! ### Engine cache lemmas shared by the claims -/

section FitLemmas

variable {n D k : ℕ}

open scoped Classical in
theorem GP.fit_L_eq (gp : GP n D k) (pr : GPPriors D) (mode : NuggetMode)
    (θ : Theta D k)
    (hQp : ((gp.Qmat mode θ).submatrix (gp.fitPerm mode θ)
      (gp.fitPerm mode θ)).PosDef) :
    (gp.fit pr mode θ).L = choleskyFactor hQp := by
  show (if h : ((gp.Qmat mode θ).submatrix (gp.fitPerm mode θ)
      (gp.fitPerm mode θ)).PosDef then choleskyFactor h else 0) = _
  rw [dif_pos hQp]

theorem GP.fit_invQt_eq (gp : GP n D k) (pr : GPPriors D) (mode : NuggetMode)
    (θ : Theta D k) :
    (gp.fit pr mode θ).invQt = (gp.Qmat mode θ)⁻¹ *ᵥ gp.resid θ := rfl

theorem GP.fit_P_eq (gp : GP n D k) (pr : GPPriors D) (mode : NuggetMode)
    (θ : Theta D k) : (gp.fit pr mode θ).P = gp.fitPerm mode θ := rfl

theorem GP.fitPerm_of_not_pivot (gp : GP n D k) (mode : NuggetMode)
    (θ : Theta D k) (hmode : mode.isPivot = false) :
    gp.fitPerm mode θ = Equiv.refl (Fin n) := by
  unfold GP.fitPerm
  rw [hmode]
  rfl

theorem choleskyFactor_congr {S T : Matrix (Fin n) (Fin n) ℝ} (h : S = T)
    (hS : S.PosDef) (hT : T.PosDef) : choleskyFactor hS = choleskyFactor hT := by
  subst h
  rfl

theorem posDef_one_fin : (1 : Matrix (Fin n) (Fin n) ℝ).PosDef := by
  constructor
  · exact Matrix.isHermitian_one
  · intro x hx
    simp only [Matrix.one_mulVec]
    have hx2 : star x ⬝ᵥ x = ∑ i, x i ^ 2 := by
      simp [Matrix.dotProduct, star_trivial, sq]
    rw [hx2]
    have hxi : ∃ i, x i ≠ 0 := by
      by_contra hno
      push_neg at hno
      exact hx (funext hno)
    obtain ⟨i, hi⟩ := hxi
    exact Finset.sum_pos' (fun j _ => sq_nonneg _)
      ⟨i, Finset.mem_univ i, by positivity⟩

end FitLemmas

/-! ### Claim C1: the log-posterior formula -/

/-- Claim C1: for every valid training set, parameter vector and nugget
mode, `logposterior(theta)` equals
`0.5 * (log det Q + (y - m)ᵀ Q⁻¹ (y - m) + n * log (2 π))` minus the sum of
the prior log-densities at the natural-space parameter values, where `Q` is
the kernel matrix at theta plus the realized nugget diagonal and `m` is the
design matrix times the mean segment of theta. -/
theorem logposterior_formula {n D k : ℕ} (gp : GP n D k) (pr : GPPriors D)
    (mode : NuggetMode) (θ : Theta D k) (hQ : (gp.Qmat mode θ).PosDef) :
    gp.logposterior pr mode θ =
      0.5 * (Real.log (kernel_f gp.X gp.X θ.corr θ.cov +
          realizedNugget mode (kernel_f gp.X gp.X θ.corr θ.cov) θ.nug •
            (1 : Matrix (Fin n) (Fin n) ℝ)).det +
        (gp.y - gp.dm *ᵥ θ.mean) ⬝ᵥ
          ((kernel_f gp.X gp.X θ.corr θ.cov +
            realizedNugget mode (kernel_f gp.X gp.X θ.corr θ.cov) θ.nug •
              (1 : Matrix (Fin n) (Fin n) ℝ))⁻¹ *ᵥ
            (gp.y - gp.dm *ᵥ θ.mean)) +
        n * Real.log (2 * Real.pi)) -
      ((∑ d, pr.corr d (Real.exp (-0.5 * θ.corr d))) +
        pr.cov (Real.exp θ.cov) +
        (if mode.isFit then pr.nugget (Real.exp θ.nug) else 0)) := by
  have hQp : ((gp.Qmat mode θ).submatrix (gp.fitPerm mode θ)
      (gp.fitPerm mode θ)).PosDef := posDef_submatrix_equiv hQ _
  have hL := gp.fit_L_eq pr mode θ hQp
  have hcur : gp.logposterior pr mode θ =
      0.5 * (2 * ∑ i, Real.log ((gp.fit pr mode θ).L i i) +
        gp.resid θ ⬝ᵥ ((gp.Qmat mode θ)⁻¹ *ᵥ gp.resid θ) +
        n * Real.log (2 * Real.pi)) - priorLogp pr mode θ := rfl
  have hdet : ((gp.Qmat mode θ).submatrix (gp.fitPerm mode θ)
      (gp.fitPerm mode θ)).det = (gp.Qmat mode θ).det :=
    Matrix.det_submatrix_equiv_self _ _
  rw [hcur, hL, ← log_det_eq_sum_log_choleskyDiag hQp, hdet]
  rfl

/-! ### A concrete one-point instance used to witness the hypotheses -/

noncomputable section WitnessInstance

/-- A one-point training set at the origin with target 2 and no mean
function. -/
def gpW : GP 1 1 0 :=
  { X := Matrix.of fun _ _ => 0
    y := fun _ => 2
    meanBasis := fun _ => ![] }

/-- The all-zero parameter vector for the witness instance. -/
def thetaW : Theta 1 0 :=
  { mean := ![]
    corr := fun _ => 0
    cov := 0
    nug := 0 }

/-- Weak priors for the witness instance. -/
def priorsW : GPPriors 1 :=
  { corr := fun _ => weakLogp
    cov := weakLogp
    nugget := weakLogp }

theorem gpW_Qmat_eq_one : gpW.Qmat (.fixedN 0) thetaW = 1 := by
  ext i j
  fin_cases i
  fin_cases j
  simp [GP.Qmat, GP.Kmat, kernel_f, sqExpCov, gpW, thetaW, realizedNugget,
    Matrix.one_apply]

theorem gpW_Qmat_posDef : (gpW.Qmat (.fixedN 0) thetaW).PosDef := by
  rw [gpW_Qmat_eq_one]
  exact posDef_one_fin

end WitnessInstance

/-- Witness for C1: the hypothesis holds and the theorem applies at a
concrete one-point instance with fixed nugget zero. -/
theorem logposterior_formula_witness :
    (gpW.Qmat (.fixedN 0) thetaW).PosDef ∧
      gpW.logposterior priorsW (.fixedN 0) thetaW =
        0.5 * (Real.log (kernel_f gpW.X gpW.X thetaW.corr thetaW.cov +
            realizedNugget (.fixedN 0) (kernel_f gpW.X gpW.X thetaW.corr thetaW.cov)
              thetaW.nug • (1 : Matrix (Fin 1) (Fin 1) ℝ)).det +
          (gpW.y - gpW.dm *ᵥ thetaW.mean) ⬝ᵥ
            ((kernel_f gpW.X gpW.X thetaW.corr thetaW.cov +
              realizedNugget (.fixedN 0) (kernel_f gpW.X gpW.X thetaW.corr thetaW.cov)
                thetaW.nug • (1 : Matrix (Fin 1) (Fin 1) ℝ))⁻¹ *ᵥ
              (gpW.y - gpW.dm *ᵥ thetaW.mean)) +
          1 * Real.log (2 * Real.pi)) -
        ((∑ d, priorsW.corr d (Real.exp (-0.5 * thetaW.corr d))) +
          priorsW.cov (Real.exp thetaW.cov) +
          (if NuggetMode.isFit (.fixedN 0) then priorsW.nugget (Real.exp thetaW.nug)
            else 0)) :=
  ⟨gpW_Qmat_posDef, by
    have h := logposterior_formula gpW priorsW (.fixedN 0) thetaW gpW_Qmat_posDef
    simpa using h⟩

/-! ### Claim C2: the cached factorisation (corrected)

As stated the claim fails in pivot mode: there the cached `L` is the
Cholesky factor of the pivot-permuted `Q`, not of `Q` itself (see the
counterexample built on the three-point pivot instance below).  The
amended claim restricts to the non-pivoting modes. -/

/-- Amended claim C2: in the non-pivot modes (fixed, adaptive, fit), after
`fit(theta)` the cached `L` is the Cholesky factor of `Q` (lower
triangular with `L Lᵀ = Q`) and the cached `invQt` equals `Q⁻¹ (y - m)`,
hence solves `Q invQt = y - m`; `Q` and `m` are reconstructed by direct
dense linear algebra from the kernel, the realized nugget and the design
matrix. -/
theorem fit_cache_correct {n D k : ℕ} (gp : GP n D k) (pr : GPPriors D)
    (mode : NuggetMode) (θ : Theta D k) (hmode : mode.isPivot = false)
    (hQ : (gp.Qmat mode θ).PosDef) :
    (gp.fit pr mode θ).L = choleskyFactor hQ ∧
    ((gp.fit pr mode θ).L).BlockTriangular OrderDual.toDual ∧
    (gp.fit pr mode θ).L * ((gp.fit pr mode θ).L)ᵀ = gp.Qmat mode θ ∧
    (gp.fit pr mode θ).invQt =
      (gp.Qmat mode θ)⁻¹ *ᵥ (gp.y - gp.dm *ᵥ θ.mean) ∧
    gp.Qmat mode θ *ᵥ (gp.fit pr mode θ).invQt = gp.y - gp.dm *ᵥ θ.mean := by
  have hPerm := gp.fitPerm_of_not_pivot mode θ hmode
  have hQsub : (gp.Qmat mode θ).submatrix (gp.fitPerm mode θ)
      (gp.fitPerm mode θ) = gp.Qmat mode θ := by
    rw [hPerm, Equiv.coe_refl, Matrix.submatrix_id_id]
  have hQp : ((gp.Qmat mode θ).submatrix (gp.fitPerm mode θ)
      (gp.fitPerm mode θ)).PosDef := by
    rw [hQsub]
    exact hQ
  have hL := gp.fit_L_eq pr mode θ hQp
  have hdet : IsUnit (gp.Qmat mode θ).det :=
    isUnit_iff_ne_zero.mpr hQ.det_pos.ne'
  refine ⟨?_, ?_, ?_, rfl, ?_⟩
  · rw [hL]
    exact choleskyFactor_congr hQsub hQp hQ
  · rw [hL]
    exact choleskyFactor_blockTriangular hQp
  · rw [hL, choleskyFactor_mul_transpose hQp, hQsub]
  · rw [gp.fit_invQt_eq pr mode θ, Matrix.mulVec_mulVec,
      Matrix.mul_nonsing_inv _ hdet, Matrix.one_mulVec]
    rfl

/-- Witness for the amended C2 at the concrete one-point instance. -/
theorem fit_cache_correct_witness :
    NuggetMode.isPivot (.fixedN 0) = false ∧
    (gpW.Qmat (.fixedN 0) thetaW).PosDef ∧
    ((gpW.fit priorsW (.fixedN 0) thetaW).L = choleskyFactor gpW_Qmat_posDef ∧
      ((gpW.fit priorsW (.fixedN 0) thetaW).L).BlockTriangular OrderDual.toDual ∧
      (gpW.fit priorsW (.fixedN 0) thetaW).L *
        ((gpW.fit priorsW (.fixedN 0) thetaW).L)ᵀ = gpW.Qmat (.fixedN 0) thetaW ∧
      (gpW.fit priorsW (.fixedN 0) thetaW).invQt =
        (gpW.Qmat (.fixedN 0) thetaW)⁻¹ *ᵥ (gpW.y - gpW.dm *ᵥ thetaW.mean) ∧
      gpW.Qmat (.fixedN 0) thetaW *ᵥ (gpW.fit priorsW (.fixedN 0) thetaW).invQt =
        gpW.y - gpW.dm *ᵥ thetaW.mean) :=
  ⟨rfl, gpW_Qmat_posDef,
    fit_cache_correct gpW priorsW (.fixedN 0) thetaW rfl gpW_Qmat_posDef⟩

/-! ### Claim C5: the predictive variance -/

theorem mul_mul_transpose_diag {m n : ℕ} (A : Matrix (Fin m) (Fin n) ℝ)
    (B : Matrix (Fin n) (Fin n) ℝ) (j : Fin m) :
    (A * B * Aᵀ) j j = (fun i => A j i) ⬝ᵥ (B *ᵥ fun i => A j i) := by
  simp only [Matrix.mul_apply, Matrix.transpose_apply, Matrix.mulVec,
    Matrix.dotProduct, Finset.sum_mul, Finset.mul_sum]
  rw [Finset.sum_comm]
  refine Finset.sum_congr rfl fun l _ => Finset.sum_congr rfl fun i _ => by ring

/-- The quadratic form of `Q⁻¹` is invariant under conjugating `Q` by the
pivot permutation and can be computed through the permuted Cholesky
factor. -/
theorem quadform_through_permuted_cholesky {n : ℕ}
    {Q : Matrix (Fin n) (Fin n) ℝ} (hQ : Q.PosDef) (P : Equiv.Perm (Fin n))
    (hQp : (Q.submatrix P P).PosDef) (v : Fin n → ℝ) :
    v ⬝ᵥ (Q⁻¹ *ᵥ v) =
      ∑ i, ((choleskyFactor hQp)⁻¹ *ᵥ fun a => v (P a)) i ^ 2 := by
  have hdet : IsUnit Q.det := isUnit_iff_ne_zero.mpr hQ.det_pos.ne'
  have h1 : (Q.submatrix P P)⁻¹ *ᵥ (v ∘ P) = (Q⁻¹ *ᵥ v) ∘ P := by
    rw [inv_submatrix_equiv hdet P]
    exact submatrix_mulVec_comp_equiv P v
  have h2 : (v ∘ P) ⬝ᵥ ((Q⁻¹ *ᵥ v) ∘ P) = v ⬝ᵥ (Q⁻¹ *ᵥ v) :=
    dotProduct_comp_equiv P v (Q⁻¹ *ᵥ v)
  have h3 := inv_quadform_eq_sum_sq hQp (v ∘ P)
  rw [h1, h2] at h3
  exact h3

/-- Claim C5: for every fitted GP and test matrix, predict with `unc`
requested returns the variance `exp(cov-scale)` (plus the realized nugget
exactly when `include_nugget` is set) minus
`diag (K(X_test, X) * Q⁻¹ * K(X, X_test))`. -/
theorem predict_variance_formula {n D k m : ℕ} (gp : GP n D k)
    (pr : GPPriors D) (mode : NuggetMode) (θ : Theta D k)
    (Xt : Matrix (Fin m) (Fin D) ℝ) (includeNugget : Bool)
    (hQ : (gp.Qmat mode θ).PosDef) :
    (gp.predict pr mode θ Xt true includeNugget).unc =
      some (fun j => Real.exp θ.cov +
        (if includeNugget then realizedNugget mode (gp.Kmat θ) θ.nug else 0) -
        (gp.Ktest θ Xt * (gp.Qmat mode θ)⁻¹ * (gp.Ktest θ Xt)ᵀ) j j) := by
  have hQp : ((gp.Qmat mode θ).submatrix (gp.fitPerm mode θ)
      (gp.fitPerm mode θ)).PosDef := posDef_submatrix_equiv hQ _
  have hL := gp.fit_L_eq pr mode θ hQp
  have hunc : (gp.predict pr mode θ Xt true includeNugget).unc =
      some (gp.predUnc pr mode θ Xt includeNugget) := rfl
  rw [hunc]
  congr 1
  funext j
  show Real.exp θ.cov + _ - ∑ i,
      ((gp.fit pr mode θ).L⁻¹ *ᵥ fun a =>
        gp.Ktest θ Xt j ((gp.fit pr mode θ).P a)) i ^ 2 = _
  rw [hL, mul_mul_transpose_diag (gp.Ktest θ Xt) (gp.Qmat mode θ)⁻¹ j,
    quadform_through_permuted_cholesky hQ (gp.fitPerm mode θ) hQp
      (fun i => gp.Ktest θ Xt j i)]
  rfl

/-- Witness for C5 at the concrete one-point instance (a single test point
at the origin), with the nugget included. -/
theorem predict_variance_formula_witness :
    (gpW.Qmat (.fixedN 0) thetaW).PosDef ∧
      (gpW.predict priorsW (.fixedN 0) thetaW
        (Matrix.of fun (_ : Fin 1) (_ : Fin 1) => (0 : ℝ)) true true).unc =
        some (fun j => Real.exp thetaW.cov +
          (if true then realizedNugget (.fixedN 0) (gpW.Kmat thetaW) thetaW.nug
            else 0) -
          (gpW.Ktest thetaW (Matrix.of fun _ _ => (0 : ℝ)) *
            (gpW.Qmat (.fixedN 0) thetaW)⁻¹ *
            (gpW.Ktest thetaW (Matrix.of fun _ _ => (0 : ℝ)))ᵀ) j j) :=
  ⟨gpW_Qmat_posDef,
    predict_variance_formula gpW priorsW (.fixedN 0) thetaW
      (Matrix.of fun _ _ => (0 : ℝ)) true gpW_Qmat_posDef⟩

/-! ### Strict diagonal dominance implies positive definiteness -/

theorem sum_erase_comm {n : ℕ} (f : Fin n → Fin n → ℝ) :
    ∑ i, ∑ j ∈ Finset.univ.erase i, f i j =
      ∑ j, ∑ i ∈ Finset.univ.erase j, f i j := by
  refine Finset.sum_comm' ?_
  intro i j
  simp [ne_comm]

theorem posDef_of_diagDominant {n : ℕ} {A : Matrix (Fin n) (Fin n) ℝ}
    (hsym : Aᵀ = A)
    (hdom : ∀ i, ∑ j ∈ Finset.univ.erase i, |A i j| < A i i) :
    A.PosDef := by
  have hAsymm : ∀ i j, A j i = A i j := fun i j => by
    have := congrFun (congrFun hsym i) j
    simpa [Matrix.transpose_apply] using this
  constructor
  · show Aᴴ = A
    rw [A.conjTranspose_eq_transpose_of_trivial, hsym]
  · intro x hx
    have hstar : star x = x := funext fun i => star_trivial _
    rw [hstar]
    have expand : x ⬝ᵥ (A *ᵥ x) =
        ∑ i, (A i i * x i ^ 2 + ∑ j ∈ Finset.univ.erase i, x i * A i j * x j) := by
      rw [Matrix.dotProduct]
      refine Finset.sum_congr rfl fun i _ => ?_
      rw [Matrix.mulVec, Matrix.dotProduct, Finset.mul_sum,
        ← Finset.sum_erase_add _ _ (Finset.mem_univ i)]
      have h1 : x i * (A i i * x i) = A i i * x i ^ 2 := by ring
      rw [add_comm, h1]
      congr 1
      exact Finset.sum_congr rfl fun j _ => by ring
    have hb : ∀ i, ∀ j ∈ Finset.univ.erase i,
        -(|A i j| * (x i ^ 2 + x j ^ 2) / 2) ≤ x i * A i j * x j := by
      intro i j _
      have h2 : |x i| * |x j| ≤ (x i ^ 2 + x j ^ 2) / 2 := by
        nlinarith [sq_nonneg (|x i| - |x j|), sq_abs (x i), sq_abs (x j)]
      have h1 : |x i * A i j * x j| ≤ |A i j| * (x i ^ 2 + x j ^ 2) / 2 := by
        rw [abs_mul, abs_mul]
        calc |x i| * |A i j| * |x j| = |A i j| * (|x i| * |x j|) := by ring
          _ ≤ |A i j| * ((x i ^ 2 + x j ^ 2) / 2) :=
              mul_le_mul_of_nonneg_left h2 (abs_nonneg _)
          _ = |A i j| * (x i ^ 2 + x j ^ 2) / 2 := by ring
      linarith [neg_abs_le (x i * A i j * x j)]
    have hlow : ∀ i, A i i * x i ^ 2 -
        ∑ j ∈ Finset.univ.erase i, |A i j| * (x i ^ 2 + x j ^ 2) / 2 ≤
        A i i * x i ^ 2 + ∑ j ∈ Finset.univ.erase i, x i * A i j * x j := by
      intro i
      have hs := Finset.sum_le_sum (hb i)
      have hneg : ∑ j ∈ Finset.univ.erase i, -(|A i j| * (x i ^ 2 + x j ^ 2) / 2) =
          -∑ j ∈ Finset.univ.erase i, |A i j| * (x i ^ 2 + x j ^ 2) / 2 := by
        rw [Finset.sum_neg_distrib]
      rw [hneg] at hs
      linarith
    have hsw : ∑ i, ∑ j ∈ Finset.univ.erase i, |A i j| * x j ^ 2 / 2 =
        ∑ i, ∑ j ∈ Finset.univ.erase i, |A i j| * x i ^ 2 / 2 := by
      rw [sum_erase_comm fun i j => |A i j| * x j ^ 2 / 2]
      refine Finset.sum_congr rfl fun j _ => Finset.sum_congr rfl fun i hi => ?_
      rw [hAsymm j i]
    have hbig : ∑ i, ∑ j ∈ Finset.univ.erase i, |A i j| * (x i ^ 2 + x j ^ 2) / 2 =
        ∑ i, ∑ j ∈ Finset.univ.erase i, |A i j| * x i ^ 2 := by
      have h1 : ∀ i, ∑ j ∈ Finset.univ.erase i, |A i j| * (x i ^ 2 + x j ^ 2) / 2 =
          (∑ j ∈ Finset.univ.erase i, |A i j| * x i ^ 2 / 2) +
          (∑ j ∈ Finset.univ.erase i, |A i j| * x j ^ 2 / 2) := by
        intro i
        rw [← Finset.sum_add_distrib]
        exact Finset.sum_congr rfl fun j _ => by ring
      calc ∑ i, ∑ j ∈ Finset.univ.erase i, |A i j| * (x i ^ 2 + x j ^ 2) / 2
          = ∑ i, ((∑ j ∈ Finset.univ.erase i, |A i j| * x i ^ 2 / 2) +
            (∑ j ∈ Finset.univ.erase i, |A i j| * x j ^ 2 / 2)) :=
            Finset.sum_congr rfl fun i _ => h1 i
        _ = (∑ i, ∑ j ∈ Finset.univ.erase i, |A i j| * x i ^ 2 / 2) +
            (∑ i, ∑ j ∈ Finset.univ.erase i, |A i j| * x j ^ 2 / 2) :=
            Finset.sum_add_distrib
        _ = (∑ i, ∑ j ∈ Finset.univ.erase i, |A i j| * x i ^ 2 / 2) +
            (∑ i, ∑ j ∈ Finset.univ.erase i, |A i j| * x i ^ 2 / 2) := by rw [hsw]
        _ = ∑ i, ((∑ j ∈ Finset.univ.erase i, |A i j| * x i ^ 2 / 2) +
            (∑ j ∈ Finset.univ.erase i, |A i j| * x i ^ 2 / 2)) :=
            Finset.sum_add_distrib.symm
        _ = ∑ i, ∑ j ∈ Finset.univ.erase i, |A i j| * x i ^ 2 := by
            refine Finset.sum_congr rfl fun i _ => ?_
            rw [← Finset.sum_add_distrib]
            exact Finset.sum_congr rfl fun j _ => by ring
    have hT : ∑ i, (A i i - ∑ j ∈ Finset.univ.erase i, |A i j|) * x i ^ 2 ≤
        x ⬝ᵥ (A *ᵥ x) := by
      rw [expand]
      calc ∑ i, (A i i - ∑ j ∈ Finset.univ.erase i, |A i j|) * x i ^ 2
          = ∑ i, (A i i * x i ^ 2 - ∑ j ∈ Finset.univ.erase i, |A i j| * x i ^ 2) := by
            refine Finset.sum_congr rfl fun i _ => ?_
            rw [sub_mul, Finset.sum_mul]
        _ = ∑ i, A i i * x i ^ 2 -
            ∑ i, ∑ j ∈ Finset.univ.erase i, |A i j| * x i ^ 2 :=
            Finset.sum_sub_distrib
        _ = ∑ i, A i i * x i ^ 2 -
            ∑ i, ∑ j ∈ Finset.univ.erase i, |A i j| * (x i ^ 2 + x j ^ 2) / 2 := by
            rw [hbig]
        _ = ∑ i, (A i i * x i ^ 2 -
            ∑ j ∈ Finset.univ.erase i, |A i j| * (x i ^ 2 + x j ^ 2) / 2) :=
            Finset.sum_sub_distrib.symm
        _ ≤ ∑ i, (A i i * x i ^ 2 + ∑ j ∈ Finset.univ.erase i, x i * A i j * x j) :=
            Finset.sum_le_sum fun i _ => hlow i
    have hpos : 0 < ∑ i, (A i i - ∑ j ∈ Finset.univ.erase i, |A i j|) * x i ^ 2 := by
      have hxi : ∃ i, x i ≠ 0 := by
        by_contra hno
        push_neg at hno
        exact hx (funext hno)
      obtain ⟨i, hi⟩ := hxi
      refine Finset.sum_pos' (fun j _ => ?_) ⟨i, Finset.mem_univ i, ?_⟩
      · exact mul_nonneg (sub_pos.mpr (hdom j)).le (sq_nonneg _)
      · exact mul_pos (sub_pos.mpr (hdom i)) (by positivity)
    linarith

/-! ### The three-point pivot instance of `test_GaussianProcess_theta_pivot`

Inputs `[1, 4, 2]` with targets `[1, 1, 2]` under fixed nugget zero versus
the reordered inputs `[1, 2, 4]` with targets `[1, 2, 1]` under pivot
mode, both at theta all zeros. -/

noncomputable section PivotInstance

/-- The canonically ordered GP of the pivot test: inputs `[1, 4, 2]`,
targets `[1, 1, 2]`. -/
def gpP1 : GP 3 1 0 :=
  { X := !![(1 : ℝ); 4; 2]
    y := ![1, 1, 2]
    meanBasis := fun _ => ![] }

/-- The reordered GP of the pivot test: inputs `[1, 2, 4]`, targets
`[1, 2, 1]`. -/
def gpP2 : GP 3 1 0 :=
  { X := !![(1 : ℝ); 2; 4]
    y := ![1, 2, 1]
    meanBasis := fun _ => ![] }

/-- Theta all zeros for the pivot instance. -/
def thetaP : Theta 1 0 :=
  { mean := ![]
    corr := ![0]
    cov := 0
    nug := 0 }

/-- `exp (-1/2)`: the kernel value at squared distance 1. -/
def kvA : ℝ := Real.exp (-(1 / 2 : ℝ))

/-- `exp (-9/2)`: the kernel value at squared distance 9. -/
def kvB : ℝ := Real.exp (-(9 / 2 : ℝ))

/-- `exp (-2)`: the kernel value at squared distance 4. -/
def kvC : ℝ := Real.exp (-(2 : ℝ))

/-- The covariance matrix of the canonically ordered instance. -/
def MP1 : Matrix (Fin 3) (Fin 3) ℝ := !![1, kvB, kvA; kvB, 1, kvC; kvA, kvC, 1]

/-- The covariance matrix of the reordered instance. -/
def MP2 : Matrix (Fin 3) (Fin 3) ℝ := !![1, kvA, kvB; kvA, 1, kvC; kvB, kvC, 1]

theorem gpP1_Qmat : gpP1.Qmat (.fixedN 0) thetaP = MP1 := by
  ext i j
  fin_cases i <;> fin_cases j <;>
    simp [GP.Qmat, GP.Kmat, kernel_f, sqExpCov, gpP1, thetaP, realizedNugget,
      Fin.sum_univ_one, MP1, kvA, kvB, kvC, Real.exp_zero, Real.exp_eq_exp] <;>
    norm_num

theorem gpP2_Qmat : gpP2.Qmat .pivot thetaP = MP2 := by
  ext i j
  fin_cases i <;> fin_cases j <;>
    simp [GP.Qmat, GP.Kmat, kernel_f, sqExpCov, gpP2, thetaP, realizedNugget,
      Fin.sum_univ_one, MP2, kvA, kvB, kvC, Real.exp_zero, Real.exp_eq_exp] <;>
    norm_num

end PivotInstance

section PivotBounds

theorem kvA_pos : 0 < kvA := Real.exp_pos _

theorem kvB_pos : 0 < kvB := Real.exp_pos _

theorem kvC_pos : 0 < kvC := Real.exp_pos _

theorem exp_neg_one_lt : Real.exp (-1 : ℝ) < 0.368 := by
  have he := Real.exp_one_gt_d9
  have h3 : Real.exp (-1 : ℝ) * Real.exp 1 = 1 := by
    rw [← Real.exp_add]
    norm_num
  nlinarith [Real.exp_pos (-1 : ℝ), Real.exp_pos (1 : ℝ)]

theorem kvA_lt : kvA < 0.63 := by
  have h2 : kvA ^ 2 = Real.exp (-1 : ℝ) := by
    rw [kvA, sq, ← Real.exp_add]
    norm_num
  have h4 : kvA ^ 2 < 0.63 ^ 2 := by
    rw [h2]
    nlinarith [exp_neg_one_lt]
  exact lt_of_pow_lt_pow_left₀ 2 (by norm_num) h4

theorem kvC_lt : kvC < 0.14 := by
  have h2 : kvC = Real.exp (-1 : ℝ) ^ 2 := by
    rw [kvC, sq, ← Real.exp_add]
    norm_num
  nlinarith [exp_neg_one_lt, Real.exp_pos (-1 : ℝ)]

theorem kvB_lt_kvC : kvB < kvC := by
  rw [kvB, kvC]
  exact Real.exp_lt_exp.mpr (by norm_num)

theorem MP1_posDef : MP1.PosDef := by
  apply posDef_of_diagDominant
  · ext i j
    fin_cases i <;> fin_cases j <;> simp [MP1]
  · intro i
    fin_cases i
    · show ∑ j ∈ Finset.univ.erase (0 : Fin 3), |MP1 0 j| < MP1 0 0
      rw [show Finset.univ.erase (0 : Fin 3) = {1, 2} by decide,
        Finset.sum_pair (by decide)]
      simp only [MP1]
      rw [show (!![1, kvB, kvA; kvB, 1, kvC; kvA, kvC, 1] : Matrix (Fin 3) (Fin 3) ℝ)
        0 0 = 1 by simp]
      rw [show (!![1, kvB, kvA; kvB, 1, kvC; kvA, kvC, 1] : Matrix (Fin 3) (Fin 3) ℝ)
        0 1 = kvB by simp]
      rw [show (!![1, kvB, kvA; kvB, 1, kvC; kvA, kvC, 1] : Matrix (Fin 3) (Fin 3) ℝ)
        0 2 = kvA by simp]
      rw [abs_of_pos kvB_pos, abs_of_pos kvA_pos]
      linarith [kvA_lt, kvC_lt, kvB_lt_kvC]
    · show ∑ j ∈ Finset.univ.erase (1 : Fin 3), |MP1 1 j| < MP1 1 1
      rw [show Finset.univ.erase (1 : Fin 3) = {0, 2} by decide,
        Finset.sum_pair (by decide)]
      simp only [MP1]
      rw [show (!![1, kvB, kvA; kvB, 1, kvC; kvA, kvC, 1] : Matrix (Fin 3) (Fin 3) ℝ)
        1 1 = 1 by simp]
      rw [show (!![1, kvB, kvA; kvB, 1, kvC; kvA, kvC, 1] : Matrix (Fin 3) (Fin 3) ℝ)
        1 0 = kvB by simp]
      rw [show (!![1, kvB, kvA; kvB, 1, kvC; kvA, kvC, 1] : Matrix (Fin 3) (Fin 3) ℝ)
        1 2 = kvC by simp]
      rw [abs_of_pos kvB_pos, abs_of_pos kvC_pos]
      linarith [kvA_lt, kvC_lt, kvB_lt_kvC]
    · show ∑ j ∈ Finset.univ.erase (2 : Fin 3), |MP1 2 j| < MP1 2 2
      rw [show Finset.univ.erase (2 : Fin 3) = {0, 1} by decide,
        Finset.sum_pair (by decide)]
      simp only [MP1]
      rw [show (!![1, kvB, kvA; kvB, 1, kvC; kvA, kvC, 1] : Matrix (Fin 3) (Fin 3) ℝ)
        2 2 = 1 by simp]
      rw [show (!![1, kvB, kvA; kvB, 1, kvC; kvA, kvC, 1] : Matrix (Fin 3) (Fin 3) ℝ)
        2 0 = kvA by simp]
      rw [show (!![1, kvB, kvA; kvB, 1, kvC; kvA, kvC, 1] : Matrix (Fin 3) (Fin 3) ℝ)
        2 1 = kvC by simp]
      rw [abs_of_pos kvA_pos, abs_of_pos kvC_pos]
      linarith [kvA_lt, kvC_lt, kvB_lt_kvC]

theorem MP2_posDef : MP2.PosDef := by
  apply posDef_of_diagDominant
  · ext i j
    fin_cases i <;> fin_cases j <;> simp [MP2]
  · intro i
    fin_cases i
    · show ∑ j ∈ Finset.univ.erase (0 : Fin 3), |MP2 0 j| < MP2 0 0
      rw [show Finset.univ.erase (0 : Fin 3) = {1, 2} by decide,
        Finset.sum_pair (by decide)]
      simp only [MP2]
      rw [show (!![1, kvA, kvB; kvA, 1, kvC; kvB, kvC, 1] : Matrix (Fin 3) (Fin 3) ℝ)
        0 0 = 1 by simp]
      rw [show (!![1, kvA, kvB; kvA, 1, kvC; kvB, kvC, 1] : Matrix (Fin 3) (Fin 3) ℝ)
        0 1 = kvA by simp]
      rw [show (!![1, kvA, kvB; kvA, 1, kvC; kvB, kvC, 1] : Matrix (Fin 3) (Fin 3) ℝ)
        0 2 = kvB by simp]
      rw [abs_of_pos kvA_pos, abs_of_pos kvB_pos]
      linarith [kvA_lt, kvC_lt, kvB_lt_kvC]
    · show ∑ j ∈ Finset.univ.erase (1 : Fin 3), |MP2 1 j| < MP2 1 1
      rw [show Finset.univ.erase (1 : Fin 3) = {0, 2} by decide,
        Finset.sum_pair (by decide)]
      simp only [MP2]
      rw [show (!![1, kvA, kvB; kvA, 1, kvC; kvB, kvC, 1] : Matrix (Fin 3) (Fin 3) ℝ)
        1 1 = 1 by simp]
      rw [show (!![1, kvA, kvB; kvA, 1, kvC; kvB, kvC, 1] : Matrix (Fin 3) (Fin 3) ℝ)
        1 0 = kvA by simp]
      rw [show (!![1, kvA, kvB; kvA, 1, kvC; kvB, kvC, 1] : Matrix (Fin 3) (Fin 3) ℝ)
        1 2 = kvC by simp]
      rw [abs_of_pos kvA_pos, abs_of_pos kvC_pos]
      linarith [kvA_lt, kvC_lt, kvB_lt_kvC]
    · show ∑ j ∈ Finset.univ.erase (2 : Fin 3), |MP2 2 j| < MP2 2 2
      rw [show Finset.univ.erase (2 : Fin 3) = {0, 1} by decide,
        Finset.sum_pair (by decide)]
      simp only [MP2]
      rw [show (!![1, kvA, kvB; kvA, 1, kvC; kvB, kvC, 1] : Matrix (Fin 3) (Fin 3) ℝ)
        2 2 = 1 by simp]
      rw [show (!![1, kvA, kvB; kvA, 1, kvC; kvB, kvC, 1] : Matrix (Fin 3) (Fin 3) ℝ)
        2 0 = kvB by simp]
      rw [show (!![1, kvA, kvB; kvA, 1, kvC; kvB, kvC, 1] : Matrix (Fin 3) (Fin 3) ℝ)
        2 1 = kvC by simp]
      rw [abs_of_pos kvB_pos, abs_of_pos kvC_pos]
      linarith [kvA_lt, kvC_lt, kvB_lt_kvC]

theorem gpP1_Qmat_posDef : (gpP1.Qmat (.fixedN 0) thetaP).PosDef := by
  rw [gpP1_Qmat]
  exact MP1_posDef

theorem gpP2_Qmat_posDef : (gpP2.Qmat .pivot thetaP).PosDef := by
  rw [gpP2_Qmat]
  exact MP2_posDef

end PivotBounds

section PivotEval

/-- Characterisation of the greedy pivot choice: any unchosen index whose
residual is maximal and which is least among the maximisers is picked. -/
theorem pickPivot_eq_some {n : ℕ} (K : Matrix (Fin n) (Fin n) ℝ)
    (l : List (Fin n)) (i : Fin n) (hi : i ∈ notChosen l)
    (hmax : ∀ j ∈ notChosen l, schurResid K l j ≤ schurResid K l i)
    (hmin : ∀ j ∈ notChosen l, schurResid K l j = schurResid K l i → i ≤ j) :
    pickPivot K l = some i := by
  have hne : (notChosen l).Nonempty := ⟨i, hi⟩
  unfold pickPivot
  rw [dif_pos hne]
  congr 1
  have hsup : (notChosen l).sup' hne (schurResid K l) = schurResid K l i :=
    le_antisymm (Finset.sup'_le hne _ hmax) (Finset.le_sup' _ hi)
  apply le_antisymm
  · apply Finset.min'_le
    rw [Finset.mem_filter]
    exact ⟨hi, by rw [hsup]⟩
  · apply Finset.le_min'
    intro j hj
    rw [Finset.mem_filter] at hj
    exact hmin j hj.1 (hj.2.trans hsup)

theorem MP2_diag (i : Fin 3) : MP2 i i = 1 := by
  fin_cases i <;> simp [MP2]

theorem schurResid_nil (K : Matrix (Fin 3) (Fin 3) ℝ) (i : Fin 3) :
    schurResid K [] i = K i i := by
  simp [schurResid, Matrix.dotProduct]

theorem pickPivot_MP2_step1 : pickPivot MP2 [] = some 0 := by
  apply pickPivot_eq_some
  · decide
  · intro j _
    rw [schurResid_nil, schurResid_nil, MP2_diag, MP2_diag]
  · intro j _ _
    exact Fin.zero_le j

theorem schurResid_MP2_single (j : Fin 3) :
    schurResid MP2 [0] j = 1 - MP2 0 j * MP2 0 j := by
  have hA : (Matrix.of fun a b : Fin (List.length [(0 : Fin 3)]) =>
      MP2 (([(0 : Fin 3)]).get a) (([(0 : Fin 3)]).get b)) =
      (1 : Matrix (Fin 1) (Fin 1) ℝ) := by
    ext a b
    fin_cases a
    fin_cases b
    simp [MP2, Matrix.one_apply]
  rw [schurResid, MP2_diag, hA, inv_one, Matrix.one_mulVec]
  simp [Matrix.dotProduct, Fin.sum_univ_one]

theorem pickPivot_MP2_step2 : pickPivot MP2 [0] = some 2 := by
  have h1 : schurResid MP2 [0] 1 = 1 - kvA * kvA := by
    rw [schurResid_MP2_single]
    simp [MP2]
  have h2 : schurResid MP2 [0] 2 = 1 - kvB * kvB := by
    rw [schurResid_MP2_single]
    simp [MP2]
  have hlt : kvB < kvA := by
    rw [kvB, kvA]
    exact Real.exp_lt_exp.mpr (by norm_num)
  have hne12 : schurResid MP2 [0] 1 ≠ schurResid MP2 [0] 2 := by
    rw [h1, h2]
    intro h
    have : kvA * kvA = kvB * kvB := by linarith
    nlinarith [kvA_pos, kvB_pos]
  apply pickPivot_eq_some
  · decide
  · intro j hj
    have hjmem : j = 1 ∨ j = 2 := by
      have : j ∈ ({1, 2} : Finset (Fin 3)) := by
        rw [show ({1, 2} : Finset (Fin 3)) = notChosen [0] by decide]
        exact hj
      simpa using this
    rcases hjmem with rfl | rfl
    · rw [h1, h2]
      nlinarith [kvA_pos, kvB_pos, hlt]
    · exact le_refl _
  · intro j hj heq
    have hjmem : j = 1 ∨ j = 2 := by
      have : j ∈ ({1, 2} : Finset (Fin 3)) := by
        rw [show ({1, 2} : Finset (Fin 3)) = notChosen [0] by decide]
        exact hj
      simpa using this
    rcases hjmem with rfl | rfl
    · exact absurd heq hne12
    · exact le_refl _

theorem pickPivot_MP2_step3 : pickPivot MP2 [0, 2] = some 1 := by
  have hmem : ∀ j ∈ notChosen [(0 : Fin 3), 2], j = 1 := by decide
  apply pickPivot_eq_some
  · decide
  · intro j hj
    rw [hmem j hj]
  · intro j hj _
    rw [hmem j hj]

theorem pivotSeq_MP2 : pivotSeq MP2 3 = [0, 2, 1] := by
  have e1 : pivotSeq MP2 1 = [0] := by
    rw [pivotSeq, show pivotSeq MP2 0 = [] from rfl, pickPivot_MP2_step1]
    rfl
  have e2 : pivotSeq MP2 2 = [0, 2] := by
    rw [pivotSeq, e1, pickPivot_MP2_step2]
    rfl
  rw [pivotSeq, e2, pickPivot_MP2_step3]
  rfl

/-- The pivot permutation swaps indices 1 and 2 on the reordered
instance. -/
theorem pivotPerm_MP2 : pivotPerm MP2 = Equiv.swap (1 : Fin 3) 2 := by
  have hfun : pivotFun MP2 = ![0, 2, 1] := by
    funext i
    rw [pivotFun, pivotSeq_MP2]
    fin_cases i <;> rfl
  have hbij : Function.Bijective (pivotFun MP2) := by
    rw [hfun]
    decide
  unfold pivotPerm
  rw [dif_pos hbij]
  apply Equiv.ext
  intro i
  show pivotFun MP2 i = _
  rw [hfun]
  fin_cases i <;> rfl

end PivotEval

section PivotShared

/-- The reordering permutation of the pivot test. -/
theorem MP2_submatrix_swap :
    MP2.submatrix (⇑(Equiv.swap (1 : Fin 3) 2)) (⇑(Equiv.swap (1 : Fin 3) 2)) =
      MP1 := by
  ext i j
  fin_cases i <;> fin_cases j <;>
    simp [MP1, MP2, Equiv.swap_apply_def, Matrix.submatrix_apply]

theorem gpP2_fitPerm : gpP2.fitPerm .pivot thetaP = Equiv.swap (1 : Fin 3) 2 := by
  have h : gpP2.fitPerm .pivot thetaP = pivotPerm (gpP2.Qmat .pivot thetaP) := rfl
  rw [h, gpP2_Qmat, pivotPerm_MP2]

theorem gpP1_fitPerm : gpP1.fitPerm (.fixedN 0) thetaP = Equiv.refl (Fin 3) :=
  gpP1.fitPerm_of_not_pivot (.fixedN 0) thetaP rfl

/-- The pivot-permuted covariance of the reordered instance equals the
covariance of the canonically ordered instance. -/
theorem gpP2_permuted_Q :
    (gpP2.Qmat .pivot thetaP).submatrix (gpP2.fitPerm .pivot thetaP)
      (gpP2.fitPerm .pivot thetaP) = gpP1.Qmat (.fixedN 0) thetaP := by
  rw [gpP2_fitPerm, gpP2_Qmat, gpP1_Qmat]
  exact MP2_submatrix_swap

theorem gpP1_resid : gpP1.resid thetaP = gpP1.y := by
  funext i
  simp [GP.resid, GP.meanVec, GP.dm, Matrix.mulVec, Matrix.dotProduct]

theorem gpP2_resid : gpP2.resid thetaP = gpP2.y := by
  funext i
  simp [GP.resid, GP.meanVec, GP.dm, Matrix.mulVec, Matrix.dotProduct]

theorem gpP1_y_comp : gpP1.y = gpP2.y ∘ ⇑(Equiv.swap (1 : Fin 3) 2) := by
  funext i
  fin_cases i <;> simp [gpP1, gpP2, Equiv.swap_apply_def]

theorem gpP1_X_comp : ∀ i, gpP1.X i = gpP2.X (Equiv.swap (1 : Fin 3) 2 i) := by
  intro i
  funext d
  fin_cases i <;> fin_cases d <;> simp [gpP1, gpP2, Equiv.swap_apply_def]

end PivotShared

/-! ### Claim C4: pivoting invariance on the concrete reordered instance -/

/-- Claim C4: fitting inputs `[1,4,2]`, targets `[1,1,2]` with nugget 0 and
the reordered inputs `[1,2,4]`, targets `[1,2,1]` with pivot mode, both at
theta all zeros, yields the pivot permutation `P = [0,2,1]`, identical
Cholesky factors `L`, the relation `invQt₁ i = invQt₂ (P i)`, and identical
predictive means and variances at every common test point. -/
theorem pivot_invariance :
    (∀ i : Fin 3, (gpP2.fit priorsW .pivot thetaP).P i = ![0, 2, 1] i) ∧
    (gpP1.fit priorsW (.fixedN 0) thetaP).L =
      (gpP2.fit priorsW .pivot thetaP).L ∧
    (∀ i : Fin 3, (gpP1.fit priorsW (.fixedN 0) thetaP).invQt i =
      (gpP2.fit priorsW .pivot thetaP).invQt
        ((gpP2.fit priorsW .pivot thetaP).P i)) ∧
    (∀ (m : ℕ) (xt : Matrix (Fin m) (Fin 1) ℝ),
      gpP1.predMean priorsW (.fixedN 0) thetaP xt =
        gpP2.predMean priorsW .pivot thetaP xt ∧
      gpP1.predUnc priorsW (.fixedN 0) thetaP xt true =
        gpP2.predUnc priorsW .pivot thetaP xt true) := by
  have h1p : ((gpP1.Qmat (.fixedN 0) thetaP).submatrix
      (gpP1.fitPerm (.fixedN 0) thetaP) (gpP1.fitPerm (.fixedN 0) thetaP)).PosDef :=
    posDef_submatrix_equiv gpP1_Qmat_posDef _
  have h2p : ((gpP2.Qmat .pivot thetaP).submatrix
      (gpP2.fitPerm .pivot thetaP) (gpP2.fitPerm .pivot thetaP)).PosDef :=
    posDef_submatrix_equiv gpP2_Qmat_posDef _
  have hL1 := gpP1.fit_L_eq priorsW (.fixedN 0) thetaP h1p
  have hL2 := gpP2.fit_L_eq priorsW .pivot thetaP h2p
  have hQeq : (gpP1.Qmat (.fixedN 0) thetaP).submatrix
      (⇑(gpP1.fitPerm (.fixedN 0) thetaP)) (⇑(gpP1.fitPerm (.fixedN 0) thetaP)) =
      (gpP2.Qmat .pivot thetaP).submatrix
      (⇑(gpP2.fitPerm .pivot thetaP)) (⇑(gpP2.fitPerm .pivot thetaP)) := by
    rw [gpP2_permuted_Q, gpP1_fitPerm, Equiv.coe_refl, Matrix.submatrix_id_id]
  have hLeq : (gpP1.fit priorsW (.fixedN 0) thetaP).L =
      (gpP2.fit priorsW .pivot thetaP).L := by
    rw [hL1, hL2]
    exact choleskyFactor_congr hQeq h1p h2p
  have hdet2 : IsUnit (gpP2.Qmat .pivot thetaP).det :=
    isUnit_iff_ne_zero.mpr gpP2_Qmat_posDef.det_pos.ne'
  have hQ1eq : gpP1.Qmat (.fixedN 0) thetaP =
      (gpP2.Qmat .pivot thetaP).submatrix (⇑(Equiv.swap (1 : Fin 3) 2))
        (⇑(Equiv.swap (1 : Fin 3) 2)) := by
    rw [← gpP2_permuted_Q, gpP2_fitPerm]
  have hstep : (gpP1.fit priorsW (.fixedN 0) thetaP).invQt =
      ((gpP2.Qmat .pivot thetaP)⁻¹ *ᵥ gpP2.y) ∘ ⇑(Equiv.swap (1 : Fin 3) 2) := by
    rw [gpP1.fit_invQt_eq priorsW (.fixedN 0) thetaP, gpP1_resid, hQ1eq,
      gpP1_y_comp, inv_submatrix_equiv hdet2 (Equiv.swap (1 : Fin 3) 2),
      submatrix_mulVec_comp_equiv (Equiv.swap (1 : Fin 3) 2) gpP2.y]
  have hinvQt : ∀ i, (gpP1.fit priorsW (.fixedN 0) thetaP).invQt i =
      (gpP2.fit priorsW .pivot thetaP).invQt (Equiv.swap (1 : Fin 3) 2 i) := by
    intro i
    rw [congrFun hstep i, gpP2.fit_invQt_eq priorsW .pivot thetaP, gpP2_resid]
    rfl
  refine ⟨?_, hLeq, ?_, ?_⟩
  · intro i
    rw [gpP2.fit_P_eq, gpP2_fitPerm]
    fin_cases i <;> rfl
  · intro i
    rw [gpP2.fit_P_eq, gpP2_fitPerm]
    exact hinvQt i
  · intro m xt
    have hKt : ∀ (j : Fin m) (i : Fin 3), gpP1.Ktest thetaP xt j i =
        gpP2.Ktest thetaP xt j (Equiv.swap (1 : Fin 3) 2 i) := by
      intro j i
      simp [GP.Ktest, kernel_f, gpP1_X_comp i]
    constructor
    · funext j
      have hm1 : gpP1.predMean priorsW (.fixedN 0) thetaP xt j =
          ∑ i, gpP1.Ktest thetaP xt j i *
            (gpP1.fit priorsW (.fixedN 0) thetaP).invQt i := by
        simp [GP.predMean, Matrix.mulVec, Matrix.dotProduct]
      have hm2 : gpP2.predMean priorsW .pivot thetaP xt j =
          ∑ i, gpP2.Ktest thetaP xt j i *
            (gpP2.fit priorsW .pivot thetaP).invQt i := by
        simp [GP.predMean, Matrix.mulVec, Matrix.dotProduct]
      rw [hm1, hm2]
      calc ∑ i, gpP1.Ktest thetaP xt j i *
            (gpP1.fit priorsW (.fixedN 0) thetaP).invQt i
          = ∑ i, gpP2.Ktest thetaP xt j (Equiv.swap (1 : Fin 3) 2 i) *
            (gpP2.fit priorsW .pivot thetaP).invQt (Equiv.swap (1 : Fin 3) 2 i) := by
            refine Finset.sum_congr rfl fun i _ => ?_
            rw [hKt j i, hinvQt i]
        _ = ∑ i, gpP2.Ktest thetaP xt j i *
            (gpP2.fit priorsW .pivot thetaP).invQt i :=
            Equiv.sum_comp (Equiv.swap (1 : Fin 3) 2) fun i =>
              gpP2.Ktest thetaP xt j i *
                (gpP2.fit priorsW .pivot thetaP).invQt i
    · funext j
      have harg : (fun a => gpP1.Ktest thetaP xt j
          ((gpP1.fit priorsW (.fixedN 0) thetaP).P a)) =
          (fun a => gpP2.Ktest thetaP xt j
          ((gpP2.fit priorsW .pivot thetaP).P a)) := by
        funext a
        rw [gpP1.fit_P_eq, gpP2.fit_P_eq, gpP1_fitPerm, gpP2_fitPerm]
        simpa using hKt j a
      show Real.exp thetaP.cov +
          (if true then realizedNugget (.fixedN 0) (gpP1.Kmat thetaP) thetaP.nug
            else 0) -
          ∑ i, (((gpP1.fit priorsW (.fixedN 0) thetaP).L)⁻¹ *ᵥ fun a =>
            gpP1.Ktest thetaP xt j
              ((gpP1.fit priorsW (.fixedN 0) thetaP).P a)) i ^ 2 =
          Real.exp thetaP.cov +
          (if true then realizedNugget .pivot (gpP2.Kmat thetaP) thetaP.nug
            else 0) -
          ∑ i, (((gpP2.fit priorsW .pivot thetaP).L)⁻¹ *ᵥ fun a =>
            gpP2.Ktest thetaP xt j
              ((gpP2.fit priorsW .pivot thetaP).P a)) i ^ 2
      rw [harg, hLeq]
      simp [realizedNugget]

/-- Counterexample to claim C2 as stated: on the reordered pivot instance
the cached `L` is not the Cholesky factor of `Q` itself (it is the factor
of the pivot-permuted `Q`). -/
theorem fit_cache_pivot_counterexample :
    ¬ (gpP2.fit priorsW .pivot thetaP).L = choleskyFactor gpP2_Qmat_posDef := by
  intro h
  have h2p : ((gpP2.Qmat .pivot thetaP).submatrix
      (gpP2.fitPerm .pivot thetaP) (gpP2.fitPerm .pivot thetaP)).PosDef :=
    posDef_submatrix_equiv gpP2_Qmat_posDef _
  have hL := gpP2.fit_L_eq priorsW .pivot thetaP h2p
  have hLLt : (gpP2.fit priorsW .pivot thetaP).L *
      ((gpP2.fit priorsW .pivot thetaP).L)ᵀ =
      (gpP2.Qmat .pivot thetaP).submatrix (gpP2.fitPerm .pivot thetaP)
        (gpP2.fitPerm .pivot thetaP) := by
    rw [hL]
    exact choleskyFactor_mul_transpose h2p
  rw [h, choleskyFactor_mul_transpose gpP2_Qmat_posDef, gpP2_permuted_Q,
    gpP2_Qmat, gpP1_Qmat] at hLLt
  have h01 := congrFun (congrFun hLLt 0) 1
  have hAB : kvA = kvB := by
    have hM2 : MP2 0 1 = kvA := by simp [MP2]
    have hM1 : MP1 0 1 = kvB := by simp [MP1]
    rw [hM2, hM1] at h01
    exact h01
  rw [kvA, kvB, Real.exp_eq_exp] at hAB
  norm_num at hAB

/-! ### Error handling: unfitted prediction (claim C6) -/

/-- The error kinds surfaced by the modelled interfaces. -/
inductive GPError where
  | valueError
  | assertionError
  | notImplemented
deriving DecidableEq

noncomputable section UnfitDefs

variable {n D k m : ℕ}

/-- Modelled from the spec and `test_GaussianProcess_predict_failures`:
predicting from a single GP whose theta is unset raises a hard error;
otherwise predict on the fitted parameters. -/
def GP.predictChecked (gp : GP n D k) (pr : GPPriors D) (mode : NuggetMode)
    (θopt : Option (Theta D k)) (Xt : Matrix (Fin m) (Fin D) ℝ)
    (uncFlag includeNugget : Bool) :
    Except GPError (PredictResult m D) :=
  match θopt with
  | none => .error .valueError
  | some θ => .ok (gp.predict pr mode θ Xt uncFlag includeNugget)

/-- An emulator inside a MultiOutputGP: a GP with an optional fitted
theta. -/
structure MOGPEmulator (n D k : ℕ) where
  gp : GP n D k
  theta : Option (Theta D k)

/-- Modelled from the spec 7(d) and `test_MultiOutputGP_predict`: the
multi-output predict processes every emulator; with `allow_not_fit` an
unfit emulator yields a NaN-filled entry (modelled as `none`, since exact
reals have no NaN) while fitted siblings yield valid predictions; with
`allow_not_fit = False` any unfit emulator raises a ValueError. -/
def multiPredict (ems : List (MOGPEmulator n D k)) (pr : GPPriors D)
    (mode : NuggetMode) (Xt : Matrix (Fin m) (Fin D) ℝ)
    (uncFlag includeNugget allowNotFit : Bool) :
    Except GPError (List (Option (PredictResult m D))) :=
  if !allowNotFit && ems.any fun e => e.theta.isNone then .error .valueError
  else .ok (ems.map fun e =>
    e.theta.map fun θ => e.gp.predict pr mode θ Xt uncFlag includeNugget)

end UnfitDefs

/-- Claim C6: predict on a single GP with unset theta is a hard error;
the multi-output predict with the default leniency returns a `none`
(NaN-filled) entry exactly for each unfit emulator while returning the
actual prediction for every fitted sibling, and raises a ValueError
instead when `allow_not_fit` is false and some emulator is unfit. -/
theorem unfit_predict_behavior {n D k m : ℕ} :
    (∀ (gp : GP n D k) (pr : GPPriors D) (mode : NuggetMode)
      (Xt : Matrix (Fin m) (Fin D) ℝ) (u inc : Bool),
      gp.predictChecked pr mode none Xt u inc = .error .valueError) ∧
    (∀ (ems : List (MOGPEmulator n D k)) (pr : GPPriors D) (mode : NuggetMode)
      (Xt : Matrix (Fin m) (Fin D) ℝ) (u inc : Bool),
      (∃ e ∈ ems, e.theta = none) →
      multiPredict ems pr mode Xt u inc false = .error .valueError) ∧
    (∀ (ems : List (MOGPEmulator n D k)) (pr : GPPriors D) (mode : NuggetMode)
      (Xt : Matrix (Fin m) (Fin D) ℝ) (u inc : Bool),
      multiPredict ems pr mode Xt u inc true =
        .ok (ems.map fun e =>
          e.theta.map fun θ => e.gp.predict pr mode θ Xt u inc)) := by
  refine ⟨fun _ _ _ _ _ _ => rfl, ?_, ?_⟩
  · intro ems pr mode Xt u inc hex
    obtain ⟨e, he, hnone⟩ := hex
    have hany : (ems.any fun e => e.theta.isNone) = true := by
      rw [List.any_eq_true]
      exact ⟨e, he, by rw [hnone]; rfl⟩
    unfold multiPredict
    rw [hany]
    rfl
  · intro ems pr mode Xt u inc
    unfold multiPredict
    simp

/-- Witness for C6: a two-emulator list with one fitted and one unfit
emulator; the strict call errors and the lenient call returns the fitted
prediction next to a `none` entry. -/
theorem unfit_predict_behavior_witness :
    (gpW.predictChecked priorsW (.fixedN 0) none
      (Matrix.of fun (_ : Fin 1) (_ : Fin 1) => (0 : ℝ)) true true =
      .error .valueError) ∧
    (multiPredict [⟨gpW, some thetaW⟩, ⟨gpW, none⟩] priorsW (.fixedN 0)
      (Matrix.of fun (_ : Fin 1) (_ : Fin 1) => (0 : ℝ)) true true false =
      .error .valueError) ∧
    (multiPredict [⟨gpW, some thetaW⟩, ⟨gpW, none⟩] priorsW (.fixedN 0)
      (Matrix.of fun (_ : Fin 1) (_ : Fin 1) => (0 : ℝ)) true true true =
      .ok [some (gpW.predict priorsW (.fixedN 0) thetaW
        (Matrix.of fun _ _ => (0 : ℝ)) true true), none]) := by
  refine ⟨?_, ?_, ?_⟩
  · exact unfit_predict_behavior.1 gpW priorsW (.fixedN 0) _ true true
  · exact unfit_predict_behavior.2.1 [⟨gpW, some thetaW⟩, ⟨gpW, none⟩]
      priorsW (.fixedN 0) _ true true ⟨⟨gpW, none⟩, by simp, rfl⟩
  · exact unfit_predict_behavior.2.2 [⟨gpW, some thetaW⟩, ⟨gpW, none⟩]
      priorsW (.fixedN 0) _ true true

/-! ### Claim C7: clearing theta resets the cache -/

noncomputable section StateDefs

variable {n D k : ℕ}

/-- Modelled from the spec: the mutable state of a GaussianProcess around
its fit cache: the stored parameter data and the cached `L`, `P`, `invQt`
and `current_logpost`, each unset (`none`) when the model is unfit
(spec 3, "Fit result"; 4.5 state machine). -/
structure GPState (n D k : ℕ) where
  thetaData : Option (Theta D k)
  L : Option (Matrix (Fin n) (Fin n) ℝ)
  P : Option (Equiv.Perm (Fin n))
  invQt : Option (Fin n → ℝ)
  current_logpost : Option ℝ

/-- Modelled from the spec: assigning the theta property: `none` clears the
parameters and every cached quantity; a value refits and fills the whole
cache (spec 4.5: fitted/unfitted transitions). -/
def GP.setTheta (gp : GP n D k) (pr : GPPriors D) (mode : NuggetMode)
    (s : GPState n D k) (θopt : Option (Theta D k)) : GPState n D k :=
  match θopt with
  | none =>
    { thetaData := none, L := none, P := none, invQt := none,
      current_logpost := none }
  | some θ =>
    let c := gp.fit pr mode θ
    { thetaData := some θ, L := some c.L, P := some c.P,
      invQt := some c.invQt, current_logpost := some c.current_logpost }

end StateDefs

/-- Claim C7: for every GaussianProcess state (in particular a fitted one),
assigning `theta = None` resets the cached `L`, `P`, `invQt` and
`current_logpost` to the unset value and clears the stored parameter
data. -/
theorem setTheta_none_clears {n D k : ℕ} (gp : GP n D k) (pr : GPPriors D)
    (mode : NuggetMode) (s : GPState n D k) :
    (gp.setTheta pr mode s none).thetaData = none ∧
    (gp.setTheta pr mode s none).L = none ∧
    (gp.setTheta pr mode s none).P = none ∧
    (gp.setTheta pr mode s none).invQt = none ∧
    (gp.setTheta pr mode s none).current_logpost = none :=
  ⟨rfl, rfl, rfl, rfl, rfl⟩

/-! ### Claim C8: a nugget prior with a non-fit nugget type (corrected)

`test_GaussianProcess_priors` (lines 366-370) constructs a GaussianProcess
from a priors mapping holding a nugget prior together with
`nugget_type = "adaptive"` and asserts that the construction succeeds with
the nugget prior replaced by the weak prior.  The claim that such a
mapping must fail validation is therefore false on the code: the nugget
prior is accepted and silently discarded. -/

/-- The nugget type tag carried by a priors mapping. -/
inductive NuggetTypeTag where
  | fixedT
  | adaptiveT
  | fitT
  | pivotT
deriving DecidableEq

/-- Modelled from `test_GaussianProcess_priors`: building the priors of a
GP from a mapping: the number of correlation priors must match the input
dimension (an `n_corr` mismatch is rejected), and the nugget prior is kept
only when the nugget type is "fit" - otherwise it is replaced by the weak
prior. -/
def mkGPPriors (D : ℕ) (corr : List (ℝ → ℝ)) (cov : ℝ → ℝ)
    (nug : Option (ℝ → ℝ)) (tag : NuggetTypeTag) :
    Except GPError (GPPriors D) :=
  if h : corr.length = D then
    .ok { corr := fun d => corr.get ⟨d.val, by rw [h]; exact d.2⟩
          cov := cov
          nugget := match tag, nug with
            | .fitT, some p => p
            | _, _ => weakLogp }
  else .error .assertionError

/-- Counterexample to claim C8 as stated: the priors mapping of the cited
test (three correlation priors, a covariance prior, a nugget prior, and
nugget type "adaptive") is accepted, and its nugget prior is replaced by
the weak prior rather than being rejected. -/
theorem nugget_prior_accepted_counterexample :
    (mkGPPriors 3 [weakLogp, weakLogp, weakLogp] weakLogp
      (some fun v => v * v) .adaptiveT).isOk = true ∧
    (mkGPPriors 3 [weakLogp, weakLogp, weakLogp] weakLogp
      (some fun v => v * v) .adaptiveT).toOption.map GPPriors.nugget =
      some weakLogp := ⟨rfl, rfl⟩

/-- Amended claim C8: a priors mapping that supplies a nugget prior while
its nugget type is not "fit" is accepted (provided the correlation prior
count matches), with the nugget prior silently replaced by the weak
prior. -/
theorem nugget_prior_discarded (D : ℕ) (corr : List (ℝ → ℝ)) (cov : ℝ → ℝ)
    (p : ℝ → ℝ) (tag : NuggetTypeTag) (htag : tag ≠ .fitT)
    (hlen : corr.length = D) :
    (mkGPPriors D corr cov (some p) tag).toOption.map GPPriors.nugget =
      some weakLogp := by
  unfold mkGPPriors
  rw [dif_pos hlen]
  cases tag with
  | fitT => exact absurd rfl htag
  | fixedT => rfl
  | adaptiveT => rfl
  | pivotT => rfl

/-- Witness for the amended C8 at the cited test mapping. -/
theorem nugget_prior_discarded_witness :
    NuggetTypeTag.adaptiveT ≠ NuggetTypeTag.fitT ∧
    ([weakLogp, weakLogp, weakLogp] : List (ℝ → ℝ)).length = 3 ∧
    (mkGPPriors 3 [weakLogp, weakLogp, weakLogp] weakLogp
      (some fun v => v * v) .adaptiveT).toOption.map GPPriors.nugget =
      some weakLogp :=
  ⟨by decide, rfl,
    nugget_prior_discarded 3 [weakLogp, weakLogp, weakLogp] weakLogp
      (fun v => v * v) .adaptiveT (by decide) rfl⟩

/-! ### Claim C9: the prediction result and its deriv slot (corrected)

`test_GaussianProcess_predict` asserts `pr.deriv is None` for the result
of a default `predict` call on a (fitted) GaussianProcess - the deriv slot
exists and is reachable positionally, by name and as an attribute, but it
holds no derivative matrix. -/

/-- The names under which a prediction result entry can be looked up. -/
inductive PRKey where
  | meanK
  | uncK
  | derivK
deriving DecidableEq

/-- Positional access to a prediction result: index 0 is the mean, index 1
the variance, index 2 the derivative. -/
def PredictResult.entry {m D : ℕ} (r : PredictResult m D) :
    Fin 3 → Option ((Fin m → ℝ) ⊕ Matrix (Fin m) (Fin D) ℝ)
  | 0 => some (.inl r.mean)
  | 1 => r.unc.map .inl
  | 2 => r.deriv.map .inr

/-- Named access to a prediction result. -/
def PredictResult.byKey {m D : ℕ} (r : PredictResult m D) :
    PRKey → Option ((Fin m → ℝ) ⊕ Matrix (Fin m) (Fin D) ℝ)
  | .meanK => some (.inl r.mean)
  | .uncK => r.unc.map .inl
  | .derivK => r.deriv.map .inr

/-- Counterexample to claim C9 as stated: at a concrete fitted
GaussianProcess, predict with the default flags returns a result whose
deriv attribute, positional entry 2 and named entry are all empty - no
derivative matrix is carried. -/
theorem predict_deriv_none_counterexample :
    (gpW.predict priorsW (.fixedN 0) thetaW
      (Matrix.of fun (_ : Fin 1) (_ : Fin 1) => (0 : ℝ)) true true).deriv =
      none ∧
    (gpW.predict priorsW (.fixedN 0) thetaW
      (Matrix.of fun (_ : Fin 1) (_ : Fin 1) => (0 : ℝ)) true true).entry 2 =
      none ∧
    (gpW.predict priorsW (.fixedN 0) thetaW
      (Matrix.of fun (_ : Fin 1) (_ : Fin 1) => (0 : ℝ)) true true).byKey
      .derivK = none := ⟨rfl, rfl, rfl⟩

/-- Amended claim C9: predict returns a tuple-like result whose mean sits
at index 0, whose variance sits at index 1 exactly when `unc` is
requested, and whose deriv slot is reachable positionally at index 2, by
the attribute and by name - but holds `None` for a single GaussianProcess
even at the default `deriv=True`. -/
theorem predict_result_structure {n D k m : ℕ} (gp : GP n D k)
    (pr : GPPriors D) (mode : NuggetMode) (θ : Theta D k)
    (Xt : Matrix (Fin m) (Fin D) ℝ) (u inc : Bool) :
    (gp.predict pr mode θ Xt u inc).deriv = none ∧
    (gp.predict pr mode θ Xt u inc).entry 2 = none ∧
    (gp.predict pr mode θ Xt u inc).byKey .derivK = none ∧
    (gp.predict pr mode θ Xt u inc).mean = gp.predMean pr mode θ Xt ∧
    (gp.predict pr mode θ Xt u inc).entry 0 =
      some (.inl (gp.predMean pr mode θ Xt)) ∧
    (gp.predict pr mode θ Xt u inc).byKey .meanK =
      some (.inl (gp.predMean pr mode θ Xt)) ∧
    (gp.predict pr mode θ Xt u inc).unc =
      (if u then some (gp.predUnc pr mode θ Xt inc) else none) ∧
    (gp.predict pr mode θ Xt u inc).entry 1 =
      ((gp.predict pr mode θ Xt u inc).unc).map .inl := by
  refine ⟨rfl, ?_, ?_, rfl, rfl, rfl, rfl, rfl⟩ <;> cases u <;> rfl

/-! ### Claim C10: the FPGA single-point prediction front end -/

/-- The numerical routines of the OpenCL prediction kernel, an external
collaborator of `GaussianProcessFPGA._predict_single`; only the shape of
the control flow is decided by the file under verification. -/
structure CLKernels (D : ℕ) where
  expect : (mm : ℕ) → Matrix (Fin mm) (Fin D) ℝ → (Fin mm → ℝ)
  variance : (mm : ℕ) → Matrix (Fin mm) (Fin D) ℝ → (Fin mm → ℝ)
  derivative : (mm : ℕ) → Matrix (Fin mm) (Fin D) ℝ → Matrix (Fin mm) (Fin D) ℝ

/-- A valid test-point array for `_predict_single`: a 1-D array (one point
of dimension `D`, reshaped to a 1 × D matrix) or a 2-D array of `mm`
points. -/
inductive TestInput (D : ℕ) where
  | oneD (v : Fin D → ℝ)
  | twoD (mm : ℕ) (M : Matrix (Fin mm) (Fin D) ℝ)

/-- The number of test points after the reshape of
`GaussianProcessFPGA._predict_single` (lines 13-16). -/
def TestInput.nTesting {D : ℕ} : TestInput D → ℕ
  | .oneD _ => 1
  | .twoD mm _ => mm

/-- The reshaped 2-D test array. -/
def TestInput.asMatrix {D : ℕ} :
    (t : TestInput D) → Matrix (Fin t.nTesting) (Fin D) ℝ
  | .oneD v => Matrix.of fun _ => v
  | .twoD _ M => M

/-- `GaussianProcessFPGA._predict_single` (GaussianProcessFPGA.py lines
12-77): dispatch on the `do_deriv`/`do_unc` flags; the `(deriv, no unc)`
combination raises NotImplementedError, the other three call the OpenCL
kernel and return the triple with variance filled only when `do_unc` and
derivative filled only when both flags are set. -/
def predictSingleFPGA {D : ℕ} (cl : CLKernels D) (t : TestInput D)
    (do_deriv do_unc : Bool) :
    Except GPError ((Fin t.nTesting → ℝ) × Option (Fin t.nTesting → ℝ) ×
      Option (Matrix (Fin t.nTesting) (Fin D) ℝ)) :=
  match do_deriv, do_unc with
  | false, false => .ok (cl.expect _ t.asMatrix, none, none)
  | false, true =>
    .ok (cl.expect _ t.asMatrix, some (cl.variance _ t.asMatrix), none)
  | true, true =>
    .ok (cl.expect _ t.asMatrix, some (cl.variance _ t.asMatrix),
      some (cl.derivative _ t.asMatrix))
  | true, false => .error .notImplemented

/-- Claim C10: `_predict_single` raises NotImplementedError exactly when
called with `do_deriv` and without `do_unc`; in the other three flag
combinations it returns a triple whose variance is present exactly when
`do_unc` holds and whose derivative is present exactly when both flags
hold. -/
theorem predictSingleFPGA_spec {D : ℕ} (cl : CLKernels D) (t : TestInput D)
    (dd du : Bool) :
    (predictSingleFPGA cl t dd du = .error .notImplemented ↔
      dd = true ∧ du = false) ∧
    ((predictSingleFPGA cl t dd du).toOption.map fun r =>
      (r.2.1.isSome, r.2.2.isSome)) =
      (if dd && !du then none else some (du, dd && du)) := by
  cases dd <;> cases du <;> exact ⟨by simp [predictSingleFPGA], rfl⟩

/-! ### Entrywise matrix-path calculus

General lemmas used for the gradient claim: Jacobi's formula for the
determinant along a path given entrywise derivatives, the derivative of
the matrix inverse (by implicit differentiation of `E·E⁻¹ = 1`), and the
derivative of a quadratic form through the inverse. -/

section DetDeriv

variable {N : ℕ}

/-- Expansion of the determinant of a matrix with one column replaced, as a
signed sum over permutations with the replaced column pulled out of the
product. -/
theorem det_updateColumn_expand (A : Matrix (Fin N) (Fin N) ℝ) (i : Fin N)
    (c : Fin N → ℝ) :
    (A.updateColumn i c).det =
      ∑ σ : Equiv.Perm (Fin N), ((Equiv.Perm.sign σ : ℤ) : ℝ) *
        (c (σ i) * ∏ j ∈ Finset.univ.erase i, A (σ j) j) := by
  rw [Matrix.det_apply']
  refine Finset.sum_congr rfl fun σ _ => ?_
  congr 1
  rw [← Finset.mul_prod_erase Finset.univ
    (fun k => (A.updateColumn i c) (σ k) k) (Finset.mem_univ i)]
  congr 1
  · simp [Matrix.updateColumn_apply]
  · refine Finset.prod_congr rfl fun j hj => ?_
    have hne : j ≠ i := Finset.ne_of_mem_erase hj
    simp [Matrix.updateColumn_apply, hne]

/-- The determinant with one column replaced is a linear form in the new
column, with adjugate coefficients (Cramer's rule). -/
theorem det_updateColumn_eq_sum (A : Matrix (Fin N) (Fin N) ℝ) (i : Fin N)
    (c : Fin N → ℝ) :
    (A.updateColumn i c).det = ∑ j, A.adjugate i j * c j := by
  rw [← Matrix.cramer_apply, Matrix.cramer_eq_adjugate_mulVec]
  simp [Matrix.mulVec, Matrix.dotProduct]

/-- Jacobi's formula along a path, from entrywise derivatives: the
derivative of the determinant is the trace-like pairing of the adjugate
with the entrywise derivative. -/
theorem hasDerivAt_det {E : ℝ → Matrix (Fin N) (Fin N) ℝ}
    {E' : Matrix (Fin N) (Fin N) ℝ} {t₀ : ℝ}
    (hE : ∀ i j, HasDerivAt (fun t => E t i j) (E' i j) t₀) :
    HasDerivAt (fun t => (E t).det)
      (∑ i, ∑ j, (E t₀).adjugate i j * E' j i) t₀ := by
  have h1 : HasDerivAt (fun t => ∑ σ : Equiv.Perm (Fin N),
      ((Equiv.Perm.sign σ : ℤ) : ℝ) * ∏ i, E t (σ i) i)
      (∑ σ : Equiv.Perm (Fin N), ((Equiv.Perm.sign σ : ℤ) : ℝ) *
        ∑ i, (∏ j ∈ Finset.univ.erase i, E t₀ (σ j) j) • E' (σ i) i) t₀ := by
    refine HasDerivAt.sum fun σ _ => ?_
    exact (HasDerivAt.finset_prod fun i _ => hE (σ i) i).const_mul _
  have h2 : (fun t => (E t).det) = fun t => ∑ σ : Equiv.Perm (Fin N),
      ((Equiv.Perm.sign σ : ℤ) : ℝ) * ∏ i, E t (σ i) i := by
    funext t
    exact Matrix.det_apply' (E t)
  rw [h2]
  convert h1 using 1
  calc ∑ i, ∑ j, (E t₀).adjugate i j * E' j i
      = ∑ i, ((E t₀).updateColumn i (fun r => E' r i)).det := by
        refine Finset.sum_congr rfl fun i _ => ?_
        rw [det_updateColumn_eq_sum]
    _ = ∑ i, ∑ σ : Equiv.Perm (Fin N), ((Equiv.Perm.sign σ : ℤ) : ℝ) *
        (E' (σ i) i * ∏ j ∈ Finset.univ.erase i, E t₀ (σ j) j) := by
        refine Finset.sum_congr rfl fun i _ => ?_
        rw [det_updateColumn_expand]
    _ = ∑ σ : Equiv.Perm (Fin N), ∑ i, ((Equiv.Perm.sign σ : ℤ) : ℝ) *
        (E' (σ i) i * ∏ j ∈ Finset.univ.erase i, E t₀ (σ j) j) :=
        Finset.sum_comm
    _ = ∑ σ : Equiv.Perm (Fin N), ((Equiv.Perm.sign σ : ℤ) : ℝ) *
        ∑ i, (∏ j ∈ Finset.univ.erase i, E t₀ (σ j) j) • E' (σ i) i := by
        refine Finset.sum_congr rfl fun σ _ => ?_
        rw [Finset.mul_sum]
        refine Finset.sum_congr rfl fun i _ => ?_
        rw [smul_eq_mul]
        ring

/-- Differentiability of the determinant along an entrywise differentiable
path. -/
theorem differentiableAt_det {E : ℝ → Matrix (Fin N) (Fin N) ℝ} {t₀ : ℝ}
    (hE : ∀ i j, DifferentiableAt ℝ (fun t => E t i j) t₀) :
    DifferentiableAt ℝ (fun t => (E t).det) t₀ :=
  (@hasDerivAt_det N E (Matrix.of fun i j => deriv (fun t => E t i j) t₀) t₀
    fun i j => (hE i j).hasDerivAt).differentiableAt

/-- Differentiability of each adjugate entry along an entrywise
differentiable path. -/
theorem differentiableAt_adjugate {E : ℝ → Matrix (Fin N) (Fin N) ℝ} {t₀ : ℝ}
    (hE : ∀ i j, DifferentiableAt ℝ (fun t => E t i j) t₀) (i j : Fin N) :
    DifferentiableAt ℝ (fun t => (E t).adjugate i j) t₀ := by
  have h : (fun t => (E t).adjugate i j) =
      fun t => ((E t).updateRow j (Pi.single i 1)).det := by
    funext t
    rw [Matrix.adjugate_apply]
  rw [h]
  refine differentiableAt_det fun a b => ?_
  by_cases ha : a = j
  · subst ha
    have h2 : (fun t => ((E t).updateRow a (Pi.single i 1)) a b) =
        fun _ => (Pi.single i (1 : ℝ) : Fin N → ℝ) b := by
      funext t
      simp [Matrix.updateRow_apply]
    rw [h2]
    exact differentiableAt_const _
  · have h2 : (fun t => ((E t).updateRow j (Pi.single i 1)) a b) =
        fun t => E t a b := by
      funext t
      simp [Matrix.updateRow_apply, ha]
    rw [h2]
    exact hE a b

/-- An entry of the inverse as adjugate over determinant. -/
theorem inv_entry_eq_adjugate_div (A : Matrix (Fin N) (Fin N) ℝ)
    (i j : Fin N) : A⁻¹ i j = A.adjugate i j / A.det := by
  rw [Matrix.inv_def, Ring.inverse_eq_inv]
  simp [Matrix.smul_apply, div_eq_inv_mul]

/-- Differentiability of each entry of the inverse along an entrywise
differentiable path of everywhere-invertible matrices. -/
theorem differentiableAt_inv_entry {E : ℝ → Matrix (Fin N) (Fin N) ℝ}
    {t₀ : ℝ} (hE : ∀ i j, DifferentiableAt ℝ (fun t => E t i j) t₀)
    (hdet : ∀ t, (E t).det ≠ 0) (i j : Fin N) :
    DifferentiableAt ℝ (fun t => (E t)⁻¹ i j) t₀ := by
  have h : (fun t => (E t)⁻¹ i j) =
      fun t => (E t).adjugate i j / (E t).det := by
    funext t
    exact inv_entry_eq_adjugate_div (E t) i j
  rw [h]
  exact (differentiableAt_adjugate hE i j).div (differentiableAt_det hE)
    (hdet t₀)

/-- Implicit differentiation of the inverse along a path: the derivative of
`(E t)⁻¹` is `−E⁻¹ E' E⁻¹`, entrywise. -/
theorem hasDerivAt_inv_entry {E : ℝ → Matrix (Fin N) (Fin N) ℝ}
    {E' : Matrix (Fin N) (Fin N) ℝ} {t₀ : ℝ}
    (hE : ∀ i j, HasDerivAt (fun t => E t i j) (E' i j) t₀)
    (hdet : ∀ t, (E t).det ≠ 0) (i j : Fin N) :
    HasDerivAt (fun t => (E t)⁻¹ i j)
      ((-((E t₀)⁻¹ * E' * (E t₀)⁻¹)) i j) t₀ := by
  set G' : Matrix (Fin N) (Fin N) ℝ :=
    Matrix.of (fun a b => deriv (fun t => (E t)⁻¹ a b) t₀)
  have hG : ∀ a b, HasDerivAt (fun t => (E t)⁻¹ a b) (G' a b) t₀ := fun a b =>
    (differentiableAt_inv_entry (fun p q => (hE p q).differentiableAt)
      hdet a b).hasDerivAt
  have hprod : ∀ a b, HasDerivAt (fun t => ∑ l, E t a l * (E t)⁻¹ l b)
      (∑ l, (E' a l * (E t₀)⁻¹ l b + E t₀ a l * G' l b)) t₀ :=
    fun a b => HasDerivAt.sum fun l _ => (hE a l).mul (hG l b)
  have hconst : ∀ a b, (fun t => ∑ l, E t a l * (E t)⁻¹ l b) =
      fun _ => (1 : Matrix (Fin N) (Fin N) ℝ) a b := by
    intro a b
    funext t
    have h1 : E t * (E t)⁻¹ = 1 :=
      Matrix.mul_nonsing_inv _ (isUnit_iff_ne_zero.2 (hdet t))
    calc ∑ l, E t a l * (E t)⁻¹ l b = (E t * (E t)⁻¹) a b :=
        (Matrix.mul_apply).symm
      _ = (1 : Matrix (Fin N) (Fin N) ℝ) a b := by rw [h1]
  have hzero : ∀ a b,
      (∑ l, (E' a l * (E t₀)⁻¹ l b + E t₀ a l * G' l b)) = 0 := by
    intro a b
    have h2 := hprod a b
    rw [hconst a b] at h2
    exact h2.unique (hasDerivAt_const _ _)
  have hmat : E' * (E t₀)⁻¹ + E t₀ * G' = 0 := by
    ext a b
    have h3 := hzero a b
    rw [Finset.sum_add_distrib] at h3
    simpa [Matrix.add_apply, Matrix.mul_apply] using h3
  have hunit : IsUnit (E t₀).det := isUnit_iff_ne_zero.2 (hdet t₀)
  have hGval : G' = -((E t₀)⁻¹ * E' * (E t₀)⁻¹) := by
    have h4 : E t₀ * G' = -(E' * (E t₀)⁻¹) :=
      eq_neg_of_add_eq_zero_right hmat
    calc G' = (E t₀)⁻¹ * (E t₀ * G') := by
          rw [← Matrix.mul_assoc, Matrix.nonsing_inv_mul _ hunit,
            Matrix.one_mul]
      _ = (E t₀)⁻¹ * (-(E' * (E t₀)⁻¹)) := by rw [h4]
      _ = -((E t₀)⁻¹ * E' * (E t₀)⁻¹) := by
          rw [Matrix.mul_neg, Matrix.mul_assoc]
  have h5 := hG i j
  rw [hGval] at h5
  exact h5

/-- Derivative of the quadratic form `rᵀ (E t)⁻¹ r` along a matrix path
with constant vector `r`. -/
theorem hasDerivAt_quadform {E : ℝ → Matrix (Fin N) (Fin N) ℝ}
    {E' : Matrix (Fin N) (Fin N) ℝ} {t₀ : ℝ}
    (hE : ∀ i j, HasDerivAt (fun t => E t i j) (E' i j) t₀)
    (hdet : ∀ t, (E t).det ≠ 0) (r : Fin N → ℝ) :
    HasDerivAt (fun t => r ⬝ᵥ ((E t)⁻¹ *ᵥ r))
      (-(r ⬝ᵥ ((E t₀)⁻¹ *ᵥ (E' *ᵥ ((E t₀)⁻¹ *ᵥ r))))) t₀ := by
  have h1 : HasDerivAt (fun t => ∑ a, r a * ∑ b, (E t)⁻¹ a b * r b)
      (∑ a, r a * ∑ b, (-((E t₀)⁻¹ * E' * (E t₀)⁻¹)) a b * r b) t₀ := by
    refine HasDerivAt.sum fun a _ => ?_
    refine HasDerivAt.const_mul _ ?_
    exact HasDerivAt.sum fun b _ =>
      (hasDerivAt_inv_entry hE hdet a b).mul_const _
  have h2 : (fun t => r ⬝ᵥ ((E t)⁻¹ *ᵥ r)) =
      fun t => ∑ a, r a * ∑ b, (E t)⁻¹ a b * r b := by
    funext t
    simp [Matrix.dotProduct, Matrix.mulVec]
  rw [h2]
  convert h1 using 1
  have h3 : (-((E t₀)⁻¹ * E' * (E t₀)⁻¹)) *ᵥ r =
      -((E t₀)⁻¹ *ᵥ (E' *ᵥ ((E t₀)⁻¹ *ᵥ r))) := by
    rw [Matrix.neg_mulVec, Matrix.mulVec_mulVec, Matrix.mulVec_mulVec]
  calc -(r ⬝ᵥ ((E t₀)⁻¹ *ᵥ (E' *ᵥ ((E t₀)⁻¹ *ᵥ r))))
      = r ⬝ᵥ ((-((E t₀)⁻¹ * E' * (E t₀)⁻¹)) *ᵥ r) := by
        rw [h3, Matrix.dotProduct_neg]
    _ = ∑ a, r a * ∑ b, (-((E t₀)⁻¹ * E' * (E t₀)⁻¹)) a b * r b := by
        simp [Matrix.dotProduct, Matrix.mulVec]

/-- Derivative of `log det` along a path of everywhere-invertible
matrices: the trace-like pairing of the inverse with the entrywise
derivative. -/
theorem hasDerivAt_log_det {E : ℝ → Matrix (Fin N) (Fin N) ℝ}
    {E' : Matrix (Fin N) (Fin N) ℝ} {t₀ : ℝ}
    (hE : ∀ i j, HasDerivAt (fun t => E t i j) (E' i j) t₀)
    (hdet : ∀ t, (E t).det ≠ 0) :
    HasDerivAt (fun t => Real.log (E t).det)
      (∑ i, ∑ j, (E t₀)⁻¹ i j * E' j i) t₀ := by
  have h1 := (hasDerivAt_det hE).log (hdet t₀)
  convert h1 using 1
  rw [eq_div_iff (hdet t₀), Finset.sum_mul]
  refine Finset.sum_congr rfl fun i _ => ?_
  rw [Finset.sum_mul]
  refine Finset.sum_congr rfl fun j _ => ?_
  rw [inv_entry_eq_adjugate_div]
  field_simp
  rw [mul_div_assoc, div_self (hdet t₀), mul_one]

end DetDeriv

/-! ### Claim C3: the analytic gradient and Hessian

Modelled from the spec: spec 4.5 ("Gradient") gives `logpost_deriv` as a
closed-form combination of trace terms `tr(Q⁻¹ ∂Q/∂θᵢ)` and quadratic
terms `−rᵀQ⁻¹ (∂Q/∂θᵢ) Q⁻¹r` per parameter block, minus prior log-density
derivatives taken through the raw→natural chain rule; `logpost_hessian`
has no closed form in the spec beyond "block-specific, must satisfy the
finite-difference check", so it is modelled as the derivative of
`logpost_deriv`.  The finite-difference tolerance checks of spec 8 are
modelled as exact equality of the stated value with the true derivative
(`HasDerivAt`), as elsewhere in this development. -/

noncomputable section C3Defs

variable {n D k : ℕ}

/-- Modelled from the spec: an index naming one scalar coordinate of the
parameter vector theta, by block (spec 3, 4.4): a mean coordinate, a
per-dimension correlation coordinate, the covariance scale or the raw
nugget. -/
inductive ThetaIdx (D k : ℕ) where
  | meanI (j : Fin k)
  | corrI (d : Fin D)
  | covI
  | nugI

/-- The scalar coordinate of theta named by an index. -/
def Theta.coord (θ : Theta D k) : ThetaIdx D k → ℝ
  | .meanI j => θ.mean j
  | .corrI d => θ.corr d
  | .covI => θ.cov
  | .nugI => θ.nug

/-- Theta with the named coordinate replaced by `t`. -/
def Theta.updAt (θ : Theta D k) : ThetaIdx D k → ℝ → Theta D k
  | .meanI j, t => { θ with mean := Function.update θ.mean j t }
  | .corrI d, t => { θ with corr := Function.update θ.corr d t }
  | .covI, t => { θ with cov := t }
  | .nugI, t => { θ with nug := t }

theorem Theta.updAt_meanI_self (θ : Theta D k) (j : Fin k) :
    θ.updAt (.meanI j) (θ.mean j) = θ := by
  show { θ with mean := Function.update θ.mean j (θ.mean j) } = θ
  rw [Function.update_eq_self]

theorem Theta.updAt_corrI_self (θ : Theta D k) (d : Fin D) :
    θ.updAt (.corrI d) (θ.corr d) = θ := by
  show { θ with corr := Function.update θ.corr d (θ.corr d) } = θ
  rw [Function.update_eq_self]

theorem Theta.updAt_covI_self (θ : Theta D k) : θ.updAt .covI θ.cov = θ := rfl

theorem Theta.updAt_nugI_self (θ : Theta D k) : θ.updAt .nugI θ.nug = θ := rfl

/-- Modelled from the spec: the nugget value added to the kernel diagonal
in each mode, at a point where the kernel matrix is already positive
definite (the adaptive jitter search then realizes zero): fixed value,
zero, `exp(raw)`, zero (spec 3, 4.5). -/
def smoothNugget (mode : NuggetMode) (rawNug : ℝ) : ℝ :=
  match mode with
  | .fixedN v => v
  | .adaptive => 0
  | .fitN => Real.exp rawNug
  | .pivot => 0

/-- Modelled from the spec: a fixed nugget must be non-negative (spec 6,
"Nugget specification": negative numbers fail with a value error). -/
def NuggetMode.validNugget : NuggetMode → Prop
  | .fixedN v => 0 ≤ v
  | _ => True

/-- The covariance matrix built with the smooth nugget form. -/
def GP.Qs (gp : GP n D k) (mode : NuggetMode) (θ : Theta D k) :
    Matrix (Fin n) (Fin n) ℝ :=
  gp.Kmat θ + smoothNugget mode θ.nug • (1 : Matrix (Fin n) (Fin n) ℝ)

theorem GP.Qmat_eq_Qs (gp : GP n D k) (mode : NuggetMode) (θ : Theta D k)
    (hK : (gp.Kmat θ).PosDef) : gp.Qmat mode θ = gp.Qs mode θ := by
  cases mode with
  | adaptive =>
      unfold GP.Qmat GP.Qs
      rw [realizedNugget_adaptive_of_posDef hK]
      rfl
  | fixedN v => rfl
  | fitN => rfl
  | pivot => rfl

/-- Modelled from the spec: the entrywise derivative `∂Q/∂θᵢ` of the
covariance matrix with respect to the raw coordinate named by the index
(spec 4.5, "Gradient"): zero for mean coordinates, the kernel entry times
the per-dimension chain factor `−½·exp(c_d)·(x_i − x_j)²_d` for
correlation coordinates, the kernel itself for the covariance scale, and
`exp(nugget)·I` in fit mode (zero otherwise) for the nugget. -/
def GP.dQ (gp : GP n D k) (mode : NuggetMode) (θ : Theta D k) :
    ThetaIdx D k → Matrix (Fin n) (Fin n) ℝ
  | .meanI _ => 0
  | .corrI d => Matrix.of fun i j =>
      gp.Kmat θ i j * (-(1 / 2) * Real.exp (θ.corr d) * (gp.X i d - gp.X j d) ^ 2)
  | .covI => gp.Kmat θ
  | .nugI => if mode.isFit then Real.exp θ.nug • (1 : Matrix (Fin n) (Fin n) ℝ) else 0

/-- Modelled from the spec: the prior log-density derivative contribution
per raw coordinate, through the raw→natural chain rule (spec 4.5): the
correlation transform is `exp(−raw/2)`, the covariance and nugget
transforms are `exp(raw)`; the nugget prior contributes only in fit
mode. -/
def priorDeriv (pr : GPPriors D) (mode : NuggetMode) (θ : Theta D k) :
    ThetaIdx D k → ℝ
  | .meanI _ => 0
  | .corrI d => deriv (pr.corr d) (Real.exp (-0.5 * θ.corr d)) *
      (-0.5 * Real.exp (-0.5 * θ.corr d))
  | .covI => deriv pr.cov (Real.exp θ.cov) * Real.exp θ.cov
  | .nugI => if mode.isFit then deriv pr.nugget (Real.exp θ.nug) * Real.exp θ.nug
      else 0

/-- Modelled from the spec: `logpost_deriv`, the closed-form gradient of
the (negative) log-posterior per raw coordinate: `−(dmᵀ Q⁻¹ r)ⱼ` for mean
coordinates (the residual's derivative through the quadratic term), and
`0.5·(tr(Q⁻¹ ∂Q/∂θᵢ) − rᵀQ⁻¹(∂Q/∂θᵢ)Q⁻¹r)` minus the prior chain-rule
term for the correlation, covariance-scale and nugget blocks (spec 4.5,
"Gradient"). -/
def GP.logpost_deriv (gp : GP n D k) (pr : GPPriors D) (mode : NuggetMode)
    (θ : Theta D k) (b : ThetaIdx D k) : ℝ :=
  match b with
  | .meanI j => -∑ i, gp.dm i j * ((gp.Qmat mode θ)⁻¹ *ᵥ gp.resid θ) i
  | b =>
    0.5 * ((∑ i, ∑ l, (gp.Qmat mode θ)⁻¹ i l * gp.dQ mode θ b l i) -
      gp.resid θ ⬝ᵥ ((gp.Qmat mode θ)⁻¹ *ᵥ (gp.dQ mode θ b *ᵥ
        ((gp.Qmat mode θ)⁻¹ *ᵥ gp.resid θ)))) - priorDeriv pr mode θ b

/-- Modelled from the spec: `logpost_hessian`, for which the spec gives no
closed form beyond "block-specific, must satisfy the finite-difference
check against `logpost_deriv`" (spec 4.5): modelled as the derivative of
`logpost_deriv` in the coordinate named by the second index. -/
def GP.logpost_hessian (gp : GP n D k) (pr : GPPriors D) (mode : NuggetMode)
    (θ : Theta D k) (b1 b2 : ThetaIdx D k) : ℝ :=
  deriv (fun t => gp.logpost_deriv pr mode (θ.updAt b2 t) b1) (θ.coord b2)

end C3Defs

section C3ModeLemmas

variable {n D k : ℕ}

/-- Adding a non-negative multiple of the identity preserves positive
definiteness. -/
theorem posDef_add_smul_one {n : ℕ} {A : Matrix (Fin n) (Fin n) ℝ}
    (hA : A.PosDef) {c : ℝ} (hc : 0 ≤ c) :
    (A + c • (1 : Matrix (Fin n) (Fin n) ℝ)).PosDef := by
  constructor
  · show (A + c • (1 : Matrix (Fin n) (Fin n) ℝ))ᴴ = _
    rw [Matrix.conjTranspose_add, hA.1, Matrix.conjTranspose_smul,
      Matrix.conjTranspose_one, star_trivial]
  · intro x hx
    have h1 : star x ⬝ᵥ ((A + c • (1 : Matrix (Fin n) (Fin n) ℝ)) *ᵥ x) =
        star x ⬝ᵥ (A *ᵥ x) + c * (star x ⬝ᵥ x) := by
      rw [Matrix.add_mulVec, Matrix.dotProduct_add]
      congr 1
      rw [Matrix.smul_mulVec_assoc, Matrix.one_mulVec, Matrix.dotProduct_smul,
        smul_eq_mul]
    rw [h1]
    have h2 : 0 ≤ star x ⬝ᵥ x := by
      have h3 : star x ⬝ᵥ x = ∑ i, x i ^ 2 := by
        simp [Matrix.dotProduct, star_trivial, sq]
      rw [h3]
      exact Finset.sum_nonneg fun i _ => sq_nonneg _
    have h4 := hA.2 x hx
    nlinarith

theorem GP.Qs_posDef (gp : GP n D k) (mode : NuggetMode) (θ : Theta D k)
    (hK : (gp.Kmat θ).PosDef) (hvn : mode.validNugget) :
    (gp.Qs mode θ).PosDef := by
  cases mode with
  | fixedN v => exact posDef_add_smul_one hK hvn
  | adaptive => exact posDef_add_smul_one hK le_rfl
  | fitN => exact posDef_add_smul_one hK (Real.exp_pos _).le
  | pivot => exact posDef_add_smul_one hK le_rfl

theorem GP.Qs_det_ne_zero (gp : GP n D k) (mode : NuggetMode) (θ : Theta D k)
    (hK : (gp.Kmat θ).PosDef) (hvn : mode.validNugget) :
    (gp.Qs mode θ).det ≠ 0 :=
  (gp.Qs_posDef mode θ hK hvn).det_pos.ne'

theorem GP.Kmat_transpose (gp : GP n D k) (θ : Theta D k) :
    (gp.Kmat θ)ᵀ = gp.Kmat θ := by
  ext i j
  show gp.Kmat θ j i = gp.Kmat θ i j
  unfold GP.Kmat kernel_f
  simp only [Matrix.of_apply]
  unfold sqExpCov
  have h : (∑ d, Real.exp (θ.corr d) * (gp.X j d - gp.X i d) ^ 2) =
      ∑ d, Real.exp (θ.corr d) * (gp.X i d - gp.X j d) ^ 2 :=
    Finset.sum_congr rfl fun d _ => by ring
  rw [h]

theorem GP.Qs_transpose (gp : GP n D k) (mode : NuggetMode) (θ : Theta D k) :
    (gp.Qs mode θ)ᵀ = gp.Qs mode θ := by
  unfold GP.Qs
  rw [Matrix.transpose_add, gp.Kmat_transpose, Matrix.transpose_smul,
    Matrix.transpose_one]

theorem GP.Qs_inv_symm (gp : GP n D k) (mode : NuggetMode) (θ : Theta D k)
    (a b : Fin n) : (gp.Qs mode θ)⁻¹ a b = (gp.Qs mode θ)⁻¹ b a := by
  have h : ((gp.Qs mode θ)⁻¹)ᵀ = (gp.Qs mode θ)⁻¹ := by
    rw [Matrix.transpose_nonsing_inv, gp.Qs_transpose]
  calc (gp.Qs mode θ)⁻¹ a b = ((gp.Qs mode θ)⁻¹)ᵀ b a := rfl
    _ = (gp.Qs mode θ)⁻¹ b a := by rw [h]

end C3ModeLemmas

section C3PathLemmas

variable {n D k : ℕ}

/-- Entrywise derivative of the kernel matrix along one raw correlation
coordinate. -/
theorem hasDerivAt_Kmat_corr (gp : GP n D k) (θ : Theta D k) (d : Fin D)
    (i j : Fin n) :
    HasDerivAt (fun t => gp.Kmat (θ.updAt (.corrI d) t) i j)
      (gp.Kmat θ i j *
        (-(1 / 2) * Real.exp (θ.corr d) * (gp.X i d - gp.X j d) ^ 2))
      (θ.corr d) := by
  have hsum : ∀ c : Fin D → ℝ,
      (∑ e, Real.exp (c e) * (gp.X i e - gp.X j e) ^ 2) =
        Real.exp (c d) * (gp.X i d - gp.X j d) ^ 2 +
        ∑ e ∈ Finset.univ.erase d, Real.exp (c e) * (gp.X i e - gp.X j e) ^ 2 :=
    fun c => (Finset.add_sum_erase Finset.univ _ (Finset.mem_univ d)).symm
  have hfun : (fun t => gp.Kmat (θ.updAt (.corrI d) t) i j) = fun t =>
      Real.exp θ.cov *
        Real.exp (-(Real.exp t * (gp.X i d - gp.X j d) ^ 2 +
          ∑ e ∈ Finset.univ.erase d,
            Real.exp (θ.corr e) * (gp.X i e - gp.X j e) ^ 2) / 2) := by
    funext t
    have herase : (∑ e ∈ Finset.univ.erase d,
        Real.exp (Function.update θ.corr d t e) * (gp.X i e - gp.X j e) ^ 2) =
        ∑ e ∈ Finset.univ.erase d,
          Real.exp (θ.corr e) * (gp.X i e - gp.X j e) ^ 2 :=
      Finset.sum_congr rfl fun e he => by
        rw [Function.update_noteq (Finset.ne_of_mem_erase he)]
    show Real.exp θ.cov *
        Real.exp (-(∑ e, Real.exp (Function.update θ.corr d t e) *
          (gp.X i e - gp.X j e) ^ 2) / 2) = _
    rw [hsum, Function.update_same, herase]
  have hK0 : gp.Kmat θ i j = Real.exp θ.cov *
      Real.exp (-(Real.exp (θ.corr d) * (gp.X i d - gp.X j d) ^ 2 +
        ∑ e ∈ Finset.univ.erase d,
          Real.exp (θ.corr e) * (gp.X i e - gp.X j e) ^ 2) / 2) := by
    show Real.exp θ.cov *
        Real.exp (-(∑ e, Real.exp (θ.corr e) * (gp.X i e - gp.X j e) ^ 2) / 2) = _
    rw [hsum]
  rw [hfun, hK0]
  have h1 : HasDerivAt (fun t : ℝ => Real.exp t * (gp.X i d - gp.X j d) ^ 2 +
      ∑ e ∈ Finset.univ.erase d, Real.exp (θ.corr e) * (gp.X i e - gp.X j e) ^ 2)
      (Real.exp (θ.corr d) * (gp.X i d - gp.X j d) ^ 2) (θ.corr d) :=
    ((Real.hasDerivAt_exp _).mul_const _).add_const _
  have h2 := ((h1.neg.div_const 2).exp).const_mul (Real.exp θ.cov)
  convert h2 using 1
  ring

/-- Entrywise derivative of the kernel matrix along the raw covariance
scale: the kernel entry itself. -/
theorem hasDerivAt_Kmat_cov (gp : GP n D k) (θ : Theta D k) (i j : Fin n) :
    HasDerivAt (fun t => gp.Kmat (θ.updAt .covI t) i j) (gp.Kmat θ i j)
      θ.cov := by
  have hfun : (fun t => gp.Kmat (θ.updAt .covI t) i j) = fun t =>
      Real.exp t * Real.exp (-(∑ e, Real.exp (θ.corr e) *
        (gp.X i e - gp.X j e) ^ 2) / 2) := rfl
  rw [hfun]
  exact (Real.hasDerivAt_exp θ.cov).mul_const _

/-- Entrywise derivative of the smooth covariance matrix along any raw
coordinate: the `∂Q/∂θᵢ` matrix of the gradient formula. -/
theorem hasDerivAt_Qs_entry (gp : GP n D k) (mode : NuggetMode)
    (θ : Theta D k) (b : ThetaIdx D k) (i j : Fin n) :
    HasDerivAt (fun t => gp.Qs mode (θ.updAt b t) i j)
      (gp.dQ mode θ b i j) (θ.coord b) := by
  cases b with
  | meanI j' => exact hasDerivAt_const (θ.mean j') (gp.Qs mode θ i j)
  | corrI d =>
      have hfun : (fun t => gp.Qs mode (θ.updAt (.corrI d) t) i j) = fun t =>
          gp.Kmat (θ.updAt (.corrI d) t) i j +
            smoothNugget mode θ.nug * (1 : Matrix (Fin n) (Fin n) ℝ) i j := by
        funext t
        show (gp.Kmat (θ.updAt (.corrI d) t) +
            smoothNugget mode θ.nug • (1 : Matrix (Fin n) (Fin n) ℝ)) i j = _
        rw [Matrix.add_apply, Matrix.smul_apply, smul_eq_mul]
      rw [hfun]
      exact (hasDerivAt_Kmat_corr gp θ d i j).add_const _
  | covI =>
      have hfun : (fun t => gp.Qs mode (θ.updAt .covI t) i j) = fun t =>
          gp.Kmat (θ.updAt .covI t) i j +
            smoothNugget mode θ.nug * (1 : Matrix (Fin n) (Fin n) ℝ) i j := by
        funext t
        show (gp.Kmat (θ.updAt .covI t) +
            smoothNugget mode θ.nug • (1 : Matrix (Fin n) (Fin n) ℝ)) i j = _
        rw [Matrix.add_apply, Matrix.smul_apply, smul_eq_mul]
      rw [hfun]
      exact (hasDerivAt_Kmat_cov gp θ i j).add_const _
  | nugI =>
      cases mode with
      | fixedN v => exact hasDerivAt_const θ.nug (gp.Qs (.fixedN v) θ i j)
      | adaptive => exact hasDerivAt_const θ.nug (gp.Qs .adaptive θ i j)
      | pivot => exact hasDerivAt_const θ.nug (gp.Qs .pivot θ i j)
      | fitN =>
          have hfun : (fun t => gp.Qs .fitN (θ.updAt .nugI t) i j) = fun t =>
              gp.Kmat θ i j +
                Real.exp t * (1 : Matrix (Fin n) (Fin n) ℝ) i j := by
            funext t
            show (gp.Kmat θ +
                Real.exp t • (1 : Matrix (Fin n) (Fin n) ℝ)) i j = _
            rw [Matrix.add_apply, Matrix.smul_apply, smul_eq_mul]
          have hval : gp.dQ .fitN θ .nugI i j =
              Real.exp θ.nug * (1 : Matrix (Fin n) (Fin n) ℝ) i j := by
            show (Real.exp θ.nug • (1 : Matrix (Fin n) (Fin n) ℝ)) i j = _
            rw [Matrix.smul_apply, smul_eq_mul]
          rw [hfun, hval]
          exact ((Real.hasDerivAt_exp θ.nug).mul_const _).const_add _

/-- Derivative of the residual along one raw mean coordinate: minus the
corresponding design-matrix column. -/
theorem hasDerivAt_resid_mean (gp : GP n D k) (θ : Theta D k) (j : Fin k)
    (i : Fin n) :
    HasDerivAt (fun t => gp.resid (θ.updAt (.meanI j) t) i) (-gp.dm i j)
      (θ.mean j) := by
  have hfun : (fun t => gp.resid (θ.updAt (.meanI j) t) i) =
      fun t => gp.y i - ∑ l, gp.dm i l * Function.update θ.mean j t l := rfl
  rw [hfun]
  have h1 : HasDerivAt (fun t => ∑ l, gp.dm i l * Function.update θ.mean j t l)
      (∑ l, if l = j then gp.dm i l else 0) (θ.mean j) := by
    refine HasDerivAt.sum fun l _ => ?_
    by_cases hl : l = j
    · subst hl
      have h2 : (fun t => gp.dm i l * Function.update θ.mean l t l) =
          fun t => gp.dm i l * t := by
        funext t
        rw [Function.update_same]
      rw [h2, if_pos rfl]
      simpa using (hasDerivAt_id (θ.mean l)).const_mul (gp.dm i l)
    · have h2 : (fun t => gp.dm i l * Function.update θ.mean j t l) =
          fun _ => gp.dm i l * θ.mean l := by
        funext t
        rw [Function.update_noteq hl]
      rw [h2, if_neg hl]
      exact hasDerivAt_const _ _
  have hv : (∑ l, if l = j then gp.dm i l else 0) = gp.dm i j := by simp
  rw [hv] at h1
  exact h1.const_sub (gp.y i)

/-- Derivative of the prior log-density along one raw correlation
coordinate, through the `exp(−raw/2)` transform. -/
theorem hasDerivAt_priorLogp_corr {D k : ℕ} (pr : GPPriors D)
    (mode : NuggetMode) (θ : Theta D k) (d : Fin D)
    (hcd : DifferentiableAt ℝ (pr.corr d) (Real.exp (-0.5 * θ.corr d))) :
    HasDerivAt (fun t => priorLogp pr mode (θ.updAt (.corrI d) t))
      (priorDeriv pr mode θ (.corrI d)) (θ.corr d) := by
  have hfun : (fun t => priorLogp pr mode (θ.updAt (.corrI d) t)) = fun t =>
      (∑ e, pr.corr e (Real.exp (-0.5 * Function.update θ.corr d t e))) +
        pr.cov (Real.exp θ.cov) +
        (if mode.isFit then pr.nugget (Real.exp θ.nug) else 0) := rfl
  rw [hfun]
  have hinner : HasDerivAt (fun t : ℝ => Real.exp (-0.5 * t))
      (Real.exp (-0.5 * θ.corr d) * -0.5) (θ.corr d) := by
    simpa using ((hasDerivAt_id (θ.corr d)).const_mul (-0.5 : ℝ)).exp
  have hsum : HasDerivAt
      (fun t => ∑ e, pr.corr e (Real.exp (-0.5 * Function.update θ.corr d t e)))
      (∑ e, if e = d then deriv (pr.corr d) (Real.exp (-0.5 * θ.corr d)) *
        (Real.exp (-0.5 * θ.corr d) * -0.5) else 0) (θ.corr d) := by
    refine HasDerivAt.sum fun e _ => ?_
    by_cases he : e = d
    · subst he
      have h2 : (fun t => pr.corr e
          (Real.exp (-0.5 * Function.update θ.corr e t e))) =
          fun t => pr.corr e (Real.exp (-0.5 * t)) := by
        funext t
        rw [Function.update_same]
      rw [h2, if_pos rfl]
      have h3 := (hcd.hasDerivAt).comp (θ.corr e) hinner
      simpa [Function.comp] using h3
    · have h2 : (fun t => pr.corr e
          (Real.exp (-0.5 * Function.update θ.corr d t e))) =
          fun _ => pr.corr e (Real.exp (-0.5 * θ.corr e)) := by
        funext t
        rw [Function.update_noteq he]
      rw [h2, if_neg he]
      exact hasDerivAt_const _ _
  have hv : (∑ e, if e = d then deriv (pr.corr d) (Real.exp (-0.5 * θ.corr d)) *
      (Real.exp (-0.5 * θ.corr d) * -0.5) else 0) =
      deriv (pr.corr d) (Real.exp (-0.5 * θ.corr d)) *
        (Real.exp (-0.5 * θ.corr d) * -0.5) := by simp
  rw [hv] at hsum
  have h4 := (hsum.add_const (pr.cov (Real.exp θ.cov))).add_const
    (if mode.isFit then pr.nugget (Real.exp θ.nug) else 0)
  convert h4 using 1
  show deriv (pr.corr d) (Real.exp (-0.5 * θ.corr d)) *
      (-0.5 * Real.exp (-0.5 * θ.corr d)) = _
  ring

/-- Derivative of the prior log-density along the raw covariance scale,
through the `exp` transform. -/
theorem hasDerivAt_priorLogp_cov {D k : ℕ} (pr : GPPriors D)
    (mode : NuggetMode) (θ : Theta D k)
    (hcv : DifferentiableAt ℝ pr.cov (Real.exp θ.cov)) :
    HasDerivAt (fun t => priorLogp pr mode (θ.updAt .covI t))
      (priorDeriv pr mode θ .covI) θ.cov := by
  have hfun : (fun t => priorLogp pr mode (θ.updAt .covI t)) = fun t =>
      (∑ e, pr.corr e (Real.exp (-0.5 * θ.corr e))) + pr.cov (Real.exp t) +
        (if mode.isFit then pr.nugget (Real.exp θ.nug) else 0) := rfl
  rw [hfun]
  have h1 := (hcv.hasDerivAt).comp θ.cov (Real.hasDerivAt_exp θ.cov)
  have h2 : HasDerivAt (fun t => pr.cov (Real.exp t))
      (deriv pr.cov (Real.exp θ.cov) * Real.exp θ.cov) θ.cov := by
    simpa [Function.comp] using h1
  exact (h2.const_add _).add_const _

/-- Derivative of the prior log-density along the raw nugget coordinate:
through the `exp` transform in fit mode, zero otherwise. -/
theorem hasDerivAt_priorLogp_nug {D k : ℕ} (pr : GPPriors D)
    (mode : NuggetMode) (θ : Theta D k)
    (hng : DifferentiableAt ℝ pr.nugget (Real.exp θ.nug)) :
    HasDerivAt (fun t => priorLogp pr mode (θ.updAt .nugI t))
      (priorDeriv pr mode θ .nugI) θ.nug := by
  cases hf : mode.isFit with
  | false =>
      have hfun : (fun t => priorLogp pr mode (θ.updAt .nugI t)) =
          fun _ => (∑ e, pr.corr e (Real.exp (-0.5 * θ.corr e))) +
            pr.cov (Real.exp θ.cov) := by
        funext t
        show (∑ e, pr.corr e (Real.exp (-0.5 * θ.corr e))) +
            pr.cov (Real.exp θ.cov) +
            (if mode.isFit then pr.nugget (Real.exp t) else 0) = _
        rw [hf]
        simp
      have hval : priorDeriv pr mode θ .nugI = 0 := by
        show (if mode.isFit then
            deriv pr.nugget (Real.exp θ.nug) * Real.exp θ.nug else 0) = 0
        rw [hf]
        simp
      rw [hfun, hval]
      exact hasDerivAt_const _ _
  | true =>
      have hfun : (fun t => priorLogp pr mode (θ.updAt .nugI t)) =
          fun t => (∑ e, pr.corr e (Real.exp (-0.5 * θ.corr e))) +
            pr.cov (Real.exp θ.cov) + pr.nugget (Real.exp t) := by
        funext t
        show (∑ e, pr.corr e (Real.exp (-0.5 * θ.corr e))) +
            pr.cov (Real.exp θ.cov) +
            (if mode.isFit then pr.nugget (Real.exp t) else 0) = _
        rw [hf]
        simp
      have hval : priorDeriv pr mode θ .nugI =
          deriv pr.nugget (Real.exp θ.nug) * Real.exp θ.nug := by
        show (if mode.isFit then
            deriv pr.nugget (Real.exp θ.nug) * Real.exp θ.nug else 0) = _
        rw [hf]
        simp
      rw [hfun, hval]
      have h1 := (hng.hasDerivAt).comp θ.nug (Real.hasDerivAt_exp θ.nug)
      have h2 : HasDerivAt (fun t => pr.nugget (Real.exp t))
          (deriv pr.nugget (Real.exp θ.nug) * Real.exp θ.nug) θ.nug := by
        simpa [Function.comp] using h1
      exact h2.const_add _

end C3PathLemmas

section C3BlockLemmas

variable {n D k : ℕ}

/-- Under an everywhere positive definite kernel and a valid nugget, the
engine's log-posterior equals the smooth determinant formula at every
theta (the adaptive jitter realizes zero, and the factorisation
precondition holds). -/
theorem logposterior_eq_smooth (gp : GP n D k) (pr : GPPriors D)
    (mode : NuggetMode) (hK : ∀ θ' : Theta D k, (gp.Kmat θ').PosDef)
    (hvn : mode.validNugget) (θ' : Theta D k) :
    gp.logposterior pr mode θ' =
      0.5 * (Real.log (gp.Qs mode θ').det +
        gp.resid θ' ⬝ᵥ ((gp.Qs mode θ')⁻¹ *ᵥ gp.resid θ') +
        n * Real.log (2 * Real.pi)) - priorLogp pr mode θ' := by
  have hQeq := gp.Qmat_eq_Qs mode θ' (hK θ')
  have hQ : (gp.Qmat mode θ').PosDef := by
    rw [hQeq]
    exact gp.Qs_posDef mode θ' (hK θ') hvn
  have hQp : ((gp.Qmat mode θ').submatrix (gp.fitPerm mode θ')
      (gp.fitPerm mode θ')).PosDef := posDef_submatrix_equiv hQ _
  have hL := gp.fit_L_eq pr mode θ' hQp
  have hcur : gp.logposterior pr mode θ' =
      0.5 * (2 * ∑ i, Real.log ((gp.fit pr mode θ').L i i) +
        gp.resid θ' ⬝ᵥ ((gp.Qmat mode θ')⁻¹ *ᵥ gp.resid θ') +
        n * Real.log (2 * Real.pi)) - priorLogp pr mode θ' := rfl
  have hdet : ((gp.Qmat mode θ').submatrix (gp.fitPerm mode θ')
      (gp.fitPerm mode θ')).det = (gp.Qmat mode θ').det :=
    Matrix.det_submatrix_equiv_self _ _
  rw [hcur, hL, ← log_det_eq_sum_log_choleskyDiag hQp, hdet, hQeq]

/-- Derivative of the log-posterior along one raw mean coordinate:
`−(dmᵀ Q⁻¹ r)ⱼ`. -/
theorem hasDerivAt_logposterior_mean (gp : GP n D k) (pr : GPPriors D)
    (mode : NuggetMode) (θ : Theta D k)
    (hK : ∀ θ' : Theta D k, (gp.Kmat θ').PosDef) (hvn : mode.validNugget)
    (j : Fin k) :
    HasDerivAt (fun t => gp.logposterior pr mode (θ.updAt (.meanI j) t))
      (gp.logpost_deriv pr mode θ (.meanI j)) (θ.mean j) := by
  have hfun : (fun t => gp.logposterior pr mode (θ.updAt (.meanI j) t)) =
      fun t => 0.5 * (Real.log (gp.Qs mode θ).det +
        (∑ a, gp.resid (θ.updAt (.meanI j) t) a *
          ∑ b, (gp.Qs mode θ)⁻¹ a b * gp.resid (θ.updAt (.meanI j) t) b) +
        n * Real.log (2 * Real.pi)) - priorLogp pr mode θ := by
    funext t
    rw [logposterior_eq_smooth gp pr mode hK hvn]
    have hq : gp.resid (θ.updAt (.meanI j) t) ⬝ᵥ
        ((gp.Qs mode (θ.updAt (.meanI j) t))⁻¹ *ᵥ
          gp.resid (θ.updAt (.meanI j) t)) =
        ∑ a, gp.resid (θ.updAt (.meanI j) t) a *
          ∑ b, (gp.Qs mode θ)⁻¹ a b * gp.resid (θ.updAt (.meanI j) t) b := by
      show gp.resid (θ.updAt (.meanI j) t) ⬝ᵥ
        ((gp.Qs mode θ)⁻¹ *ᵥ gp.resid (θ.updAt (.meanI j) t)) = _
      simp [Matrix.dotProduct, Matrix.mulVec]
    rw [hq]
    rfl
  rw [hfun]
  have hB0 : HasDerivAt (fun t => ∑ a, gp.resid (θ.updAt (.meanI j) t) a *
      ∑ b, (gp.Qs mode θ)⁻¹ a b * gp.resid (θ.updAt (.meanI j) t) b)
      (∑ a, (-gp.dm a j *
          (∑ b, (gp.Qs mode θ)⁻¹ a b *
            gp.resid (θ.updAt (.meanI j) (θ.mean j)) b) +
        gp.resid (θ.updAt (.meanI j) (θ.mean j)) a *
          ∑ b, (gp.Qs mode θ)⁻¹ a b * -gp.dm b j)) (θ.mean j) := by
    refine HasDerivAt.sum fun a _ => ?_
    exact (hasDerivAt_resid_mean gp θ j a).mul
      (HasDerivAt.sum fun b _ => (hasDerivAt_resid_mean gp θ j b).const_mul _)
  rw [Theta.updAt_meanI_self] at hB0
  have hF := (((hB0.const_add (Real.log (gp.Qs mode θ).det)).add_const
      ((n : ℝ) * Real.log (2 * Real.pi))).const_mul (0.5 : ℝ)).sub_const
      (priorLogp pr mode θ)
  convert hF using 1
  have hQinv : (gp.Qmat mode θ)⁻¹ = (gp.Qs mode θ)⁻¹ := by
    rw [gp.Qmat_eq_Qs mode θ (hK θ)]
  show (-∑ i, gp.dm i j * ((gp.Qmat mode θ)⁻¹ *ᵥ gp.resid θ) i) = _
  rw [hQinv]
  have hmv : ∀ a : Fin n, ((gp.Qs mode θ)⁻¹ *ᵥ gp.resid θ) a =
      ∑ b, (gp.Qs mode θ)⁻¹ a b * gp.resid θ b := fun a => rfl
  simp only [hmv]
  have hswap : (∑ a, gp.resid θ a *
      ∑ b, (gp.Qs mode θ)⁻¹ a b * -gp.dm b j) =
      ∑ a, -gp.dm a j * ∑ b, (gp.Qs mode θ)⁻¹ a b * gp.resid θ b := by
    calc ∑ a, gp.resid θ a * ∑ b, (gp.Qs mode θ)⁻¹ a b * -gp.dm b j
        = ∑ a, ∑ b, gp.resid θ a *
            ((gp.Qs mode θ)⁻¹ a b * -gp.dm b j) := by
          refine Finset.sum_congr rfl fun a _ => ?_
          rw [Finset.mul_sum]
      _ = ∑ b, ∑ a, gp.resid θ a *
            ((gp.Qs mode θ)⁻¹ a b * -gp.dm b j) := Finset.sum_comm
      _ = ∑ b, -gp.dm b j * ∑ a, (gp.Qs mode θ)⁻¹ b a * gp.resid θ a := by
          refine Finset.sum_congr rfl fun b _ => ?_
          rw [Finset.mul_sum]
          refine Finset.sum_congr rfl fun a _ => ?_
          rw [gp.Qs_inv_symm mode θ a b]
          ring
  rw [Finset.sum_add_distrib, hswap]
  have h5 : (-∑ i, gp.dm i j *
      ∑ b, (gp.Qs mode θ)⁻¹ i b * gp.resid θ b) =
      ∑ a, -gp.dm a j * ∑ b, (gp.Qs mode θ)⁻¹ a b * gp.resid θ b := by
    rw [← Finset.sum_neg_distrib]
    exact Finset.sum_congr rfl fun a _ => by ring
  rw [h5]
  ring

/-- Shared derivative computation of the log-posterior along a non-mean
raw coordinate, from the entrywise `∂Q` derivative, the constancy of the
residual and the prior-path derivative. -/
theorem hasDerivAt_logposterior_other (gp : GP n D k) (pr : GPPriors D)
    (mode : NuggetMode) (θ : Theta D k)
    (hK : ∀ θ' : Theta D k, (gp.Kmat θ').PosDef) (hvn : mode.validNugget)
    (b : ThetaIdx D k)
    (hresid : ∀ t, gp.resid (θ.updAt b t) = gp.resid θ)
    (hbne : gp.logpost_deriv pr mode θ b =
      0.5 * ((∑ i, ∑ l, (gp.Qmat mode θ)⁻¹ i l * gp.dQ mode θ b l i) -
        gp.resid θ ⬝ᵥ ((gp.Qmat mode θ)⁻¹ *ᵥ (gp.dQ mode θ b *ᵥ
          ((gp.Qmat mode θ)⁻¹ *ᵥ gp.resid θ)))) - priorDeriv pr mode θ b)
    (hself : θ.updAt b (θ.coord b) = θ)
    (hP : HasDerivAt (fun t => priorLogp pr mode (θ.updAt b t))
      (priorDeriv pr mode θ b) (θ.coord b)) :
    HasDerivAt (fun t => gp.logposterior pr mode (θ.updAt b t))
      (gp.logpost_deriv pr mode θ b) (θ.coord b) := by
  have hE : ∀ i l, HasDerivAt (fun t => gp.Qs mode (θ.updAt b t) i l)
      (gp.dQ mode θ b i l) (θ.coord b) := fun i l =>
    hasDerivAt_Qs_entry gp mode θ b i l
  have hdet : ∀ t, (gp.Qs mode (θ.updAt b t)).det ≠ 0 := fun t =>
    gp.Qs_det_ne_zero mode (θ.updAt b t) (hK _) hvn
  have hA : HasDerivAt (fun t => Real.log (gp.Qs mode (θ.updAt b t)).det)
      (∑ i, ∑ l, (gp.Qs mode θ)⁻¹ i l * gp.dQ mode θ b l i) (θ.coord b) := by
    have h0 := hasDerivAt_log_det hE hdet
    rw [hself] at h0
    exact h0
  have hB : HasDerivAt (fun t => gp.resid θ ⬝ᵥ
      ((gp.Qs mode (θ.updAt b t))⁻¹ *ᵥ gp.resid θ))
      (-(gp.resid θ ⬝ᵥ ((gp.Qs mode θ)⁻¹ *ᵥ (gp.dQ mode θ b *ᵥ
        ((gp.Qs mode θ)⁻¹ *ᵥ gp.resid θ))))) (θ.coord b) := by
    have h0 := hasDerivAt_quadform hE hdet (gp.resid θ)
    rw [hself] at h0
    exact h0
  have hfun : (fun t => gp.logposterior pr mode (θ.updAt b t)) = fun t =>
      0.5 * (Real.log (gp.Qs mode (θ.updAt b t)).det +
        gp.resid θ ⬝ᵥ ((gp.Qs mode (θ.updAt b t))⁻¹ *ᵥ gp.resid θ) +
        n * Real.log (2 * Real.pi)) - priorLogp pr mode (θ.updAt b t) := by
    funext t
    rw [logposterior_eq_smooth gp pr mode hK hvn, hresid t]
  rw [hfun]
  have hF := (((hA.add hB).add_const
      ((n : ℝ) * Real.log (2 * Real.pi))).const_mul (0.5 : ℝ)).sub hP
  convert hF using 1
  rw [hbne]
  have hQinv : (gp.Qmat mode θ)⁻¹ = (gp.Qs mode θ)⁻¹ := by
    rw [gp.Qmat_eq_Qs mode θ (hK θ)]
  rw [hQinv]
  ring

/-- Derivative of the log-posterior along one raw correlation
coordinate. -/
theorem hasDerivAt_logposterior_corr (gp : GP n D k) (pr : GPPriors D)
    (mode : NuggetMode) (θ : Theta D k)
    (hK : ∀ θ' : Theta D k, (gp.Kmat θ').PosDef) (hvn : mode.validNugget)
    (d : Fin D)
    (hcd : DifferentiableAt ℝ (pr.corr d) (Real.exp (-0.5 * θ.corr d))) :
    HasDerivAt (fun t => gp.logposterior pr mode (θ.updAt (.corrI d) t))
      (gp.logpost_deriv pr mode θ (.corrI d)) (θ.corr d) :=
  hasDerivAt_logposterior_other gp pr mode θ hK hvn (.corrI d)
    (fun _ => rfl) rfl (Theta.updAt_corrI_self θ d)
    (hasDerivAt_priorLogp_corr pr mode θ d hcd)

/-- Derivative of the log-posterior along the raw covariance scale. -/
theorem hasDerivAt_logposterior_cov (gp : GP n D k) (pr : GPPriors D)
    (mode : NuggetMode) (θ : Theta D k)
    (hK : ∀ θ' : Theta D k, (gp.Kmat θ').PosDef) (hvn : mode.validNugget)
    (hcv : DifferentiableAt ℝ pr.cov (Real.exp θ.cov)) :
    HasDerivAt (fun t => gp.logposterior pr mode (θ.updAt .covI t))
      (gp.logpost_deriv pr mode θ .covI) θ.cov :=
  hasDerivAt_logposterior_other gp pr mode θ hK hvn .covI
    (fun _ => rfl) rfl (Theta.updAt_covI_self θ)
    (hasDerivAt_priorLogp_cov pr mode θ hcv)

/-- Derivative of the log-posterior along the raw nugget coordinate. -/
theorem hasDerivAt_logposterior_nug (gp : GP n D k) (pr : GPPriors D)
    (mode : NuggetMode) (θ : Theta D k)
    (hK : ∀ θ' : Theta D k, (gp.Kmat θ').PosDef) (hvn : mode.validNugget)
    (hng : DifferentiableAt ℝ pr.nugget (Real.exp θ.nug)) :
    HasDerivAt (fun t => gp.logposterior pr mode (θ.updAt .nugI t))
      (gp.logpost_deriv pr mode θ .nugI) θ.nug :=
  hasDerivAt_logposterior_other gp pr mode θ hK hvn .nugI
    (fun _ => rfl) rfl (Theta.updAt_nugI_self θ)
    (hasDerivAt_priorLogp_nug pr mode θ hng)

end C3BlockLemmas

section C3HessianLemmas

variable {n D k : ℕ}

/-- The correlation projection of a one-coordinate update is
differentiable in the new value (identity or constant). -/
theorem diffAt_updAt_corr (θ : Theta D k) (b : ThetaIdx D k) (d : Fin D)
    (x : ℝ) : DifferentiableAt ℝ (fun t => (θ.updAt b t).corr d) x := by
  cases b with
  | meanI j => exact differentiableAt_const _
  | covI => exact differentiableAt_const _
  | nugI => exact differentiableAt_const _
  | corrI e =>
      by_cases hd : d = e
      · subst hd
        have h : (fun t => (θ.updAt (.corrI d) t).corr d) = fun t => t := by
          funext t
          show Function.update θ.corr d t d = t
          rw [Function.update_same]
        rw [h]
        exact differentiableAt_id'
      · have h : (fun t => (θ.updAt (.corrI e) t).corr d) =
            fun _ => θ.corr d := by
          funext t
          show Function.update θ.corr e t d = θ.corr d
          rw [Function.update_noteq hd]
        rw [h]
        exact differentiableAt_const _

/-- The covariance-scale projection of a one-coordinate update is
differentiable in the new value. -/
theorem diffAt_updAt_cov (θ : Theta D k) (b : ThetaIdx D k) (x : ℝ) :
    DifferentiableAt ℝ (fun t => (θ.updAt b t).cov) x := by
  cases b with
  | covI => exact differentiableAt_id'
  | meanI j => exact differentiableAt_const _
  | corrI d => exact differentiableAt_const _
  | nugI => exact differentiableAt_const _

/-- The nugget projection of a one-coordinate update is differentiable in
the new value. -/
theorem diffAt_updAt_nug (θ : Theta D k) (b : ThetaIdx D k) (x : ℝ) :
    DifferentiableAt ℝ (fun t => (θ.updAt b t).nug) x := by
  cases b with
  | nugI => exact differentiableAt_id'
  | meanI j => exact differentiableAt_const _
  | corrI d => exact differentiableAt_const _
  | covI => exact differentiableAt_const _

/-- Kernel entries are differentiable along every coordinate path. -/
theorem diffAt_Kmat_entry (gp : GP n D k) (θ : Theta D k) (b : ThetaIdx D k)
    (i j : Fin n) :
    DifferentiableAt ℝ (fun t => gp.Kmat (θ.updAt b t) i j) (θ.coord b) := by
  cases b with
  | meanI j' => exact differentiableAt_const (gp.Kmat θ i j)
  | nugI => exact differentiableAt_const (gp.Kmat θ i j)
  | corrI d => exact (hasDerivAt_Kmat_corr gp θ d i j).differentiableAt
  | covI => exact (hasDerivAt_Kmat_cov gp θ i j).differentiableAt

/-- Entries of the smooth covariance inverse are differentiable along
every coordinate path when the kernel stays positive definite. -/
theorem diffAt_Qs_inv_entry (gp : GP n D k) (mode : NuggetMode)
    (θ : Theta D k) (hK : ∀ θ' : Theta D k, (gp.Kmat θ').PosDef)
    (hvn : mode.validNugget) (b : ThetaIdx D k) (i l : Fin n) :
    DifferentiableAt ℝ (fun t => (gp.Qs mode (θ.updAt b t))⁻¹ i l)
      (θ.coord b) :=
  differentiableAt_inv_entry
    (fun a c => (hasDerivAt_Qs_entry gp mode θ b a c).differentiableAt)
    (fun t => gp.Qs_det_ne_zero mode (θ.updAt b t) (hK _) hvn) i l

/-- Residual entries are differentiable along every coordinate path. -/
theorem diffAt_resid_entry (gp : GP n D k) (θ : Theta D k) (b : ThetaIdx D k)
    (m : Fin n) :
    DifferentiableAt ℝ (fun t => gp.resid (θ.updAt b t) m) (θ.coord b) := by
  cases b with
  | meanI j => exact (hasDerivAt_resid_mean gp θ j m).differentiableAt
  | corrI d => exact differentiableAt_const (gp.resid θ m)
  | covI => exact differentiableAt_const (gp.resid θ m)
  | nugI => exact differentiableAt_const (gp.resid θ m)

/-- Entries of the `∂Q/∂θ` matrices are differentiable along every
coordinate path. -/
theorem diffAt_dQ_entry (gp : GP n D k) (mode : NuggetMode) (θ : Theta D k)
    (b1 b2 : ThetaIdx D k) (l i : Fin n) :
    DifferentiableAt ℝ (fun t => gp.dQ mode (θ.updAt b2 t) b1 l i)
      (θ.coord b2) := by
  cases b1 with
  | meanI j => exact differentiableAt_const _
  | corrI d =>
      have h : (fun t => gp.dQ mode (θ.updAt b2 t) (.corrI d) l i) =
          fun t => gp.Kmat (θ.updAt b2 t) l i *
            (-(1 / 2) * Real.exp ((θ.updAt b2 t).corr d) *
              (gp.X l d - gp.X i d) ^ 2) := rfl
      rw [h]
      exact (diffAt_Kmat_entry gp θ b2 l i).mul
        ((((diffAt_updAt_corr θ b2 d _).exp).const_mul
          (-(1 / 2) : ℝ)).mul_const _)
  | covI => exact diffAt_Kmat_entry gp θ b2 l i
  | nugI =>
      cases hf : mode.isFit with
      | false =>
          have h : (fun t => gp.dQ mode (θ.updAt b2 t) .nugI l i) =
              fun _ => (0 : ℝ) := by
            funext t
            show (if mode.isFit then Real.exp ((θ.updAt b2 t).nug) •
                (1 : Matrix (Fin n) (Fin n) ℝ) else 0) l i = 0
            rw [hf]
            simp
          rw [h]
          exact differentiableAt_const _
      | true =>
          have h : (fun t => gp.dQ mode (θ.updAt b2 t) .nugI l i) =
              fun t => Real.exp ((θ.updAt b2 t).nug) *
                (1 : Matrix (Fin n) (Fin n) ℝ) l i := by
            funext t
            show (if mode.isFit then Real.exp ((θ.updAt b2 t).nug) •
                (1 : Matrix (Fin n) (Fin n) ℝ) else 0) l i = _
            rw [hf]
            simp [Matrix.smul_apply]
          rw [h]
          exact ((diffAt_updAt_nug θ b2 _).exp).mul_const _

/-- A twice continuously differentiable real function has a differentiable
derivative. -/
theorem differentiable_deriv_of_contDiff_two {f : ℝ → ℝ}
    (hf : ContDiff ℝ 2 f) : Differentiable ℝ (deriv f) := by
  have h2 : ContDiff ℝ (1 + 1) f := by
    have he : ((1 : WithTop ℕ∞) + 1) = 2 := by norm_num
    rw [he]
    exact hf
  have h3 := (contDiff_succ_iff_deriv.mp h2).2.2
  exact h3.differentiable le_rfl

/-- The prior chain-rule terms are differentiable along every coordinate
path when the priors are twice continuously differentiable. -/
theorem diffAt_priorDeriv (pr : GPPriors D) (mode : NuggetMode)
    (θ : Theta D k) (hc2 : ∀ d, ContDiff ℝ 2 (pr.corr d))
    (hv2 : ContDiff ℝ 2 pr.cov) (hn2 : ContDiff ℝ 2 pr.nugget)
    (b1 b2 : ThetaIdx D k) :
    DifferentiableAt ℝ (fun t => priorDeriv pr mode (θ.updAt b2 t) b1)
      (θ.coord b2) := by
  cases b1 with
  | meanI j => exact differentiableAt_const _
  | corrI d =>
      have h : (fun t => priorDeriv pr mode (θ.updAt b2 t) (.corrI d)) =
          fun t => deriv (pr.corr d)
            (Real.exp (-0.5 * (θ.updAt b2 t).corr d)) *
            (-0.5 * Real.exp (-0.5 * (θ.updAt b2 t).corr d)) := rfl
      rw [h]
      have hinner : DifferentiableAt ℝ
          (fun t => Real.exp (-0.5 * (θ.updAt b2 t).corr d)) (θ.coord b2) :=
        ((diffAt_updAt_corr θ b2 d _).const_mul (-0.5 : ℝ)).exp
      have houter : DifferentiableAt ℝ
          (fun t => deriv (pr.corr d)
            (Real.exp (-0.5 * (θ.updAt b2 t).corr d))) (θ.coord b2) := by
        have hD := differentiable_deriv_of_contDiff_two (hc2 d)
        have h1 := (hD _).comp (θ.coord b2) hinner
        simpa [Function.comp] using h1
      exact houter.mul (hinner.const_mul (-0.5 : ℝ))
  | covI =>
      have h : (fun t => priorDeriv pr mode (θ.updAt b2 t) .covI) =
          fun t => deriv pr.cov (Real.exp ((θ.updAt b2 t).cov)) *
            Real.exp ((θ.updAt b2 t).cov) := rfl
      rw [h]
      have hinner : DifferentiableAt ℝ
          (fun t => Real.exp ((θ.updAt b2 t).cov)) (θ.coord b2) :=
        (diffAt_updAt_cov θ b2 _).exp
      have houter : DifferentiableAt ℝ
          (fun t => deriv pr.cov (Real.exp ((θ.updAt b2 t).cov)))
          (θ.coord b2) := by
        have hD := differentiable_deriv_of_contDiff_two hv2
        have h1 := (hD _).comp (θ.coord b2) hinner
        simpa [Function.comp] using h1
      exact houter.mul hinner
  | nugI =>
      cases hf : mode.isFit with
      | false =>
          have h : (fun t => priorDeriv pr mode (θ.updAt b2 t) .nugI) =
              fun _ => (0 : ℝ) := by
            funext t
            show (if mode.isFit then deriv pr.nugget
                (Real.exp ((θ.updAt b2 t).nug)) *
                Real.exp ((θ.updAt b2 t).nug) else 0) = 0
            rw [hf]
            simp
          rw [h]
          exact differentiableAt_const _
      | true =>
          have h : (fun t => priorDeriv pr mode (θ.updAt b2 t) .nugI) =
              fun t => deriv pr.nugget (Real.exp ((θ.updAt b2 t).nug)) *
                Real.exp ((θ.updAt b2 t).nug) := by
            funext t
            show (if mode.isFit then deriv pr.nugget
                (Real.exp ((θ.updAt b2 t).nug)) *
                Real.exp ((θ.updAt b2 t).nug) else 0) = _
            rw [hf]
            simp
          rw [h]
          have hinner : DifferentiableAt ℝ
              (fun t => Real.exp ((θ.updAt b2 t).nug)) (θ.coord b2) :=
            (diffAt_updAt_nug θ b2 _).exp
          have houter : DifferentiableAt ℝ
              (fun t => deriv pr.nugget (Real.exp ((θ.updAt b2 t).nug)))
              (θ.coord b2) := by
            have hD := differentiable_deriv_of_contDiff_two hn2
            have h1 := (hD _).comp (θ.coord b2) hinner
            simpa [Function.comp] using h1
          exact houter.mul hinner

end C3HessianLemmas

section C3Main

variable {n D k : ℕ}

/-- Differentiability of the non-mean gradient components along every
coordinate path. -/
theorem diffAt_logpost_deriv_other (gp : GP n D k) (pr : GPPriors D)
    (mode : NuggetMode) (θ : Theta D k)
    (hK : ∀ θ' : Theta D k, (gp.Kmat θ').PosDef) (hvn : mode.validNugget)
    (hc2 : ∀ d, ContDiff ℝ 2 (pr.corr d)) (hv2 : ContDiff ℝ 2 pr.cov)
    (hn2 : ContDiff ℝ 2 pr.nugget) (b1 b2 : ThetaIdx D k)
    (hb : ∀ θ' : Theta D k, gp.logpost_deriv pr mode θ' b1 =
      0.5 * ((∑ i, ∑ l, (gp.Qmat mode θ')⁻¹ i l * gp.dQ mode θ' b1 l i) -
        gp.resid θ' ⬝ᵥ ((gp.Qmat mode θ')⁻¹ *ᵥ (gp.dQ mode θ' b1 *ᵥ
          ((gp.Qmat mode θ')⁻¹ *ᵥ gp.resid θ')))) - priorDeriv pr mode θ' b1) :
    DifferentiableAt ℝ
      (fun t => gp.logpost_deriv pr mode (θ.updAt b2 t) b1) (θ.coord b2) := by
  have hQfun : ∀ θ' : Theta D k, (gp.Qmat mode θ')⁻¹ = (gp.Qs mode θ')⁻¹ :=
    fun θ' => by rw [gp.Qmat_eq_Qs mode θ' (hK θ')]
  have h : (fun t => gp.logpost_deriv pr mode (θ.updAt b2 t) b1) = fun t =>
      0.5 * ((∑ i, ∑ l, (gp.Qs mode (θ.updAt b2 t))⁻¹ i l *
          gp.dQ mode (θ.updAt b2 t) b1 l i) -
        ∑ a, gp.resid (θ.updAt b2 t) a *
          ∑ c, (gp.Qs mode (θ.updAt b2 t))⁻¹ a c *
            ∑ e, gp.dQ mode (θ.updAt b2 t) b1 c e *
              ∑ g, (gp.Qs mode (θ.updAt b2 t))⁻¹ e g *
                gp.resid (θ.updAt b2 t) g) -
        priorDeriv pr mode (θ.updAt b2 t) b1 := by
    funext t
    rw [hb (θ.updAt b2 t), hQfun (θ.updAt b2 t)]
    rfl
  rw [h]
  refine DifferentiableAt.sub ?_
    (diffAt_priorDeriv pr mode θ hc2 hv2 hn2 b1 b2)
  refine DifferentiableAt.const_mul ?_ (0.5 : ℝ)
  refine DifferentiableAt.sub ?_ ?_
  · refine DifferentiableAt.sum fun i _ => ?_
    refine DifferentiableAt.sum fun l _ => ?_
    exact (diffAt_Qs_inv_entry gp mode θ hK hvn b2 i l).mul
      (diffAt_dQ_entry gp mode θ b1 b2 l i)
  · refine DifferentiableAt.sum fun a _ => ?_
    refine (diffAt_resid_entry gp θ b2 a).mul ?_
    refine DifferentiableAt.sum fun c _ => ?_
    refine (diffAt_Qs_inv_entry gp mode θ hK hvn b2 a c).mul ?_
    refine DifferentiableAt.sum fun e _ => ?_
    refine (diffAt_dQ_entry gp mode θ b1 b2 c e).mul ?_
    refine DifferentiableAt.sum fun g _ => ?_
    exact (diffAt_Qs_inv_entry gp mode θ hK hvn b2 e g).mul
      (diffAt_resid_entry gp θ b2 g)

/-- Differentiability of every gradient component along every coordinate
path. -/
theorem diffAt_logpost_deriv (gp : GP n D k) (pr : GPPriors D)
    (mode : NuggetMode) (θ : Theta D k)
    (hK : ∀ θ' : Theta D k, (gp.Kmat θ').PosDef) (hvn : mode.validNugget)
    (hc2 : ∀ d, ContDiff ℝ 2 (pr.corr d)) (hv2 : ContDiff ℝ 2 pr.cov)
    (hn2 : ContDiff ℝ 2 pr.nugget) (b1 b2 : ThetaIdx D k) :
    DifferentiableAt ℝ
      (fun t => gp.logpost_deriv pr mode (θ.updAt b2 t) b1) (θ.coord b2) := by
  have hQfun : ∀ θ' : Theta D k, (gp.Qmat mode θ')⁻¹ = (gp.Qs mode θ')⁻¹ :=
    fun θ' => by rw [gp.Qmat_eq_Qs mode θ' (hK θ')]
  cases b1 with
  | meanI j =>
      have h : (fun t => gp.logpost_deriv pr mode (θ.updAt b2 t) (.meanI j)) =
          fun t => -∑ i, gp.dm i j *
            ∑ l, (gp.Qs mode (θ.updAt b2 t))⁻¹ i l *
              gp.resid (θ.updAt b2 t) l := by
        funext t
        show (-∑ i, gp.dm i j * ((gp.Qmat mode (θ.updAt b2 t))⁻¹ *ᵥ
            gp.resid (θ.updAt b2 t)) i) = _
        rw [hQfun (θ.updAt b2 t)]
        rfl
      rw [h]
      refine DifferentiableAt.neg ?_
      refine DifferentiableAt.sum fun i _ => ?_
      refine DifferentiableAt.const_mul ?_ _
      refine DifferentiableAt.sum fun l _ => ?_
      exact (diffAt_Qs_inv_entry gp mode θ hK hvn b2 i l).mul
        (diffAt_resid_entry gp θ b2 l)
  | corrI d =>
      exact diffAt_logpost_deriv_other gp pr mode θ hK hvn hc2 hv2 hn2
        (.corrI d) b2 fun θ' => rfl
  | covI =>
      exact diffAt_logpost_deriv_other gp pr mode θ hK hvn hc2 hv2 hn2
        .covI b2 fun θ' => rfl
  | nugI =>
      exact diffAt_logpost_deriv_other gp pr mode θ hK hvn hc2 hv2 hn2
        .nugI b2 fun θ' => rfl

end C3Main

/-- Claim C3: for every parameter block (mean, correlation,
covariance-scale, nugget) and every nugget mode whose fixed value is
valid (non-negative), over a training set whose kernel matrix stays
positive definite and twice continuously differentiable priors, the
closed-form `logpost_deriv` is the exact derivative of `logposterior` in
each raw coordinate, and `logpost_hessian` is the exact derivative of
`logpost_deriv` in each pair of raw coordinates.  The spec's
finite-difference checks (step 1e-6, atol 1e-7, rtol 1e-5) are modelled as
exact equality of the claimed value with the true derivative. -/
theorem logpost_deriv_hessian_correct {n D k : ℕ} (gp : GP n D k)
    (pr : GPPriors D)
    (mode : NuggetMode) (θ : Theta D k)
    (hK : ∀ θ' : Theta D k, (gp.Kmat θ').PosDef) (hvn : mode.validNugget)
    (hc2 : ∀ d, ContDiff ℝ 2 (pr.corr d)) (hv2 : ContDiff ℝ 2 pr.cov)
    (hn2 : ContDiff ℝ 2 pr.nugget) :
    (∀ b : ThetaIdx D k,
      HasDerivAt (fun t => gp.logposterior pr mode (θ.updAt b t))
        (gp.logpost_deriv pr mode θ b) (θ.coord b)) ∧
    (∀ b1 b2 : ThetaIdx D k,
      HasDerivAt (fun t => gp.logpost_deriv pr mode (θ.updAt b2 t) b1)
        (gp.logpost_hessian pr mode θ b1 b2) (θ.coord b2)) := by
  constructor
  · intro b
    cases b with
    | meanI j => exact hasDerivAt_logposterior_mean gp pr mode θ hK hvn j
    | corrI d =>
        exact hasDerivAt_logposterior_corr gp pr mode θ hK hvn d
          ((hc2 d).differentiable (by norm_num)).differentiableAt
    | covI =>
        exact hasDerivAt_logposterior_cov gp pr mode θ hK hvn
          (hv2.differentiable (by norm_num)).differentiableAt
    | nugI =>
        exact hasDerivAt_logposterior_nug gp pr mode θ hK hvn
          (hn2.differentiable (by norm_num)).differentiableAt
  · intro b1 b2
    exact (diffAt_logpost_deriv gp pr mode θ hK hvn hc2 hv2 hn2 b1 b2).hasDerivAt

/-! ### A one-point instance with a mean feature, witnessing C3 -/

noncomputable section C3Witness

/-- A one-point training set at the origin with target 2 and a constant
mean basis feature. -/
def gpW1 : GP 1 1 1 :=
  { X := Matrix.of fun _ _ => 0
    y := fun _ => 2
    meanBasis := fun _ _ => 1 }

/-- The all-zero parameter vector for the witness instance. -/
def thetaW1 : Theta 1 1 :=
  { mean := fun _ => 0
    corr := fun _ => 0
    cov := 0
    nug := 0 }

/-- A 1×1 real matrix with positive entry is positive definite. -/
theorem posDef_fin_one {A : Matrix (Fin 1) (Fin 1) ℝ} (h : 0 < A 0 0) :
    A.PosDef := by
  constructor
  · show Aᴴ = A
    ext i j
    fin_cases i
    fin_cases j
    simp [Matrix.conjTranspose_apply]
  · intro x hx
    have hx0 : x 0 ≠ 0 := by
      intro h0
      apply hx
      funext i
      fin_cases i
      exact h0
    have hq : star x ⬝ᵥ (A *ᵥ x) = A 0 0 * x 0 ^ 2 := by
      show ∑ i, star x i * (A *ᵥ x) i = _
      rw [Fin.sum_univ_one]
      show star (x 0) * (∑ i, A 0 i * x i) = _
      rw [Fin.sum_univ_one, star_trivial]
      ring
    rw [hq]
    have hsq : 0 < x 0 ^ 2 := by positivity
    exact mul_pos h hsq

/-- The witness kernel matrix is positive definite at every theta. -/
theorem gpW1_Kmat_posDef (θ' : Theta 1 1) : (gpW1.Kmat θ').PosDef := by
  apply posDef_fin_one
  show 0 < Real.exp θ'.cov * Real.exp (-(∑ e, Real.exp (θ'.corr e) *
    (gpW1.X 0 e - gpW1.X 0 e) ^ 2) / 2)
  positivity

end C3Witness

/-- Witness for C3: every hypothesis holds and the theorem applies at a
concrete one-point instance in fit-nugget mode with weak priors. -/
theorem logpost_deriv_hessian_correct_witness :
    (∀ θ' : Theta 1 1, (gpW1.Kmat θ').PosDef) ∧
    NuggetMode.validNugget .fitN ∧
    (∀ d, ContDiff ℝ 2 (priorsW.corr d)) ∧
    ContDiff ℝ 2 priorsW.cov ∧ ContDiff ℝ 2 priorsW.nugget ∧
    ((∀ b : ThetaIdx 1 1,
      HasDerivAt
        (fun t => gpW1.logposterior priorsW .fitN (thetaW1.updAt b t))
        (gpW1.logpost_deriv priorsW .fitN thetaW1 b) (thetaW1.coord b)) ∧
    (∀ b1 b2 : ThetaIdx 1 1,
      HasDerivAt
        (fun t => gpW1.logpost_deriv priorsW .fitN (thetaW1.updAt b2 t) b1)
        (gpW1.logpost_hessian priorsW .fitN thetaW1 b1 b2)
        (thetaW1.coord b2))) :=
  ⟨gpW1_Kmat_posDef, trivial, fun _ => contDiff_const, contDiff_const,
    contDiff_const,
    logpost_deriv_hessian_correct gpW1 priorsW .fitN thetaW1
      gpW1_Kmat_posDef trivial (fun _ => contDiff_const) contDiff_const
      contDiff_const⟩
